import Mathlib

/-
Verification of the notes document store against its specification.

The Python sources are shallowly embedded: strings are lists of
characters, in-memory dictionaries (which preserve insertion order in
Python) are association lists, and fallible code returns Except.
Filesystem and JSON persistence are modelled by the in-memory values the
code maintains; OS-level lock operations are recorded as an explicit
event trace.
-/

set_option autoImplicit false

namespace BotNotes

/-- Python strings are modelled as lists of characters. -/
abbrev Str := List Char

/-- Convert a Lean string literal to the model representation. -/
def pstr (s : String) : Str := s.data

/-- Character class stripped by Python str.strip() with no arguments
(the ASCII whitespace characters). -/
def isPySpace (c : Char) : Bool :=
  c == ' ' || c == '\t' || c == '\n' || c == '\r' || c == '\x0b' || c == '\x0c'

/-- Python str.strip(): drop whitespace from both ends. -/
def pyStrip (s : Str) : Str :=
  ((s.dropWhile isPySpace).reverse.dropWhile isPySpace).reverse

/-- Python str.lstrip("/"): drop every leading slash. -/
def lstripSlash (s : Str) : Str := s.dropWhile (fun c => c == '/')

/-- Python str.strip("/"): drop slashes from both ends. -/
def stripSlash (s : Str) : Str :=
  ((s.dropWhile (fun c => c == '/')).reverse.dropWhile (fun c => c == '/')).reverse

/-- Lexicographic comparison of strings by code point, as Python compares str. -/
def strLe : Str → Str → Bool
  | [], _ => true
  | _ :: _, [] => false
  | a :: as, b :: bs => if a = b then strLe as bs else decide (a.val < b.val)

/-- Insert into a list sorted by strLe (used to model Python sorted()). -/
def insSortedStr (x : Str) : List Str → List Str
  | [] => [x]
  | y :: ys => if strLe x y then x :: y :: ys else y :: insSortedStr x ys

/-- Python sorted() on a list of strings (stable insertion sort). -/
def sortStr (l : List Str) : List Str := l.foldr insSortedStr []

/-- Insert into an ascending list of naturals. -/
def insSortedNat (x : Nat) : List Nat → List Nat
  | [] => [x]
  | y :: ys => if x ≤ y then x :: y :: ys else y :: insSortedNat x ys

/-- Python sorted() on a list of ints. -/
def sortNat (l : List Nat) : List Nat := l.foldr insSortedNat []

/-- Split a string at every occurrence of a separator character, as
Python str.split(sep): a trailing separator yields a trailing empty
piece and the empty string yields one empty piece. -/
def splitOnChar (sep : Char) : Str → List Str
  | [] => [[]]
  | c :: rest =>
    if c = sep then [] :: splitOnChar sep rest
    else
      match splitOnChar sep rest with
      | [] => [[c]]
      | l :: ls => (c :: l) :: ls

/-- Python str.split("\n"). -/
def splitLines (s : Str) : List Str := splitOnChar '\n' s

/-- Decide whether pat occurs as a contiguous substring of s. -/
def containsSub (pat : Str) : Str → Bool
  | [] => pat.isPrefixOf []
  | c :: rest => pat.isPrefixOf (c :: rest) || containsSub pat rest

/-! ## Advisory RW lock (src/botnotes/storage/lock.py)

The per-thread state of RWFileLock is the pair (lock_mode, lock_count);
the OS-level fcntl.flock calls made by one thread are recorded as an
event trace.  Nested with-blocks executed by a single thread are
represented by the Prog tree, and run executes it exactly as the
read_lock / write_lock context managers do, including the finally
blocks, which run even when the body raised. -/

namespace RWFileLock

/-- Value of the lock_mode field: 0=none, 1=read, 2=write. -/
inductive Mode where
  | modeNone
  | modeRead
  | modeWrite
deriving DecidableEq, Repr

/-- Per-thread lock state _ThreadLockState (the fd field is subsumed by
the mode being distinct from modeNone). -/
structure TState where
  lock_mode : Mode
  lock_count : Nat
deriving DecidableEq, Repr

/-- OS-level fcntl.flock operations on the lock file descriptor. -/
inductive OsOp where
  | lockSh
  | lockEx
  | unlock
deriving DecidableEq, Repr

/-- Errors raised by the lock: the RuntimeError for a write acquisition
while holding a read lock. -/
inductive LockErr where
  | lockOrder
deriving DecidableEq, Repr

/-- Well-nested lock scopes executed by one thread: the body of a
with read_lock() / with write_lock() block, sequencing, and an empty
body. -/
inductive Prog where
  | skip
  | readScope (body : Prog)
  | writeScope (body : Prog)
  | seq (p q : Prog)

/-- Execute nested lock scopes from a given per-thread state, returning
the final state, the trace of OS-level lock operations, and the first
error raised (an error propagates outward but every enclosing finally
block still runs, as in Python). -/
def run : Prog → TState → TState × List OsOp × Option LockErr
  | .skip, s => (s, [], none)
  | .seq p q, s =>
    match run p s with
    | (s1, ops1, some e) => (s1, ops1, some e)
    | (s1, ops1, none) =>
      match run q s1 with
      | (s2, ops2, e2) => (s2, ops1 ++ ops2, e2)
  | .readScope p, s =>
    match s.lock_mode with
    | .modeWrite =>
      match run p ⟨s.lock_mode, s.lock_count + 1⟩ with
      | (s1, ops, e) => (⟨s1.lock_mode, s1.lock_count - 1⟩, ops, e)
    | .modeRead =>
      match run p ⟨s.lock_mode, s.lock_count + 1⟩ with
      | (s1, ops, e) => (⟨s1.lock_mode, s1.lock_count - 1⟩, ops, e)
    | .modeNone =>
      match run p ⟨.modeRead, 1⟩ with
      | (s1, ops, e) =>
        if s1.lock_count - 1 = 0 then
          (⟨.modeNone, 0⟩, .lockSh :: ops ++ [.unlock], e)
        else
          (⟨s1.lock_mode, s1.lock_count - 1⟩, .lockSh :: ops, e)
  | .writeScope p, s =>
    match s.lock_mode with
    | .modeWrite =>
      match run p ⟨s.lock_mode, s.lock_count + 1⟩ with
      | (s1, ops, e) => (⟨s1.lock_mode, s1.lock_count - 1⟩, ops, e)
    | .modeRead => (s, [], some .lockOrder)
    | .modeNone =>
      match run p ⟨.modeWrite, 1⟩ with
      | (s1, ops, e) =>
        if s1.lock_count - 1 = 0 then
          (⟨.modeNone, 0⟩, .lockEx :: ops ++ [.unlock], e)
        else
          (⟨s1.lock_mode, s1.lock_count - 1⟩, .lockEx :: ops, e)

end RWFileLock

/-! ## Wiki link parsing (src/botnotes/links/parser.py)

WIKI_LINK_PATTERN is the regex ``\[\[([^\]|]+)(?:\|([^\]]+))?\]\]``.
Both character classes exclude the character that terminates them, so
the greedy quantifiers never benefit from backtracking: a deterministic
longest-run scanner matches exactly the same strings, with the same
groups, as the Python regex engine (leftmost, non-overlapping matches,
resuming after each match). -/

/-- Characters allowed in the first capture group of WIKI_LINK_PATTERN. -/
def isTargetChar (c : Char) : Bool := !(c == ']' || c == '|')

/-- Characters allowed in the display-text capture group. -/
def isDisplayChar (c : Char) : Bool := !(c == ']')

/-- Close a pipe link: after group 1 and the pipe, the display group
has been consumed and the closing brackets must follow.  Returns
(matched text, raw group 1, raw group 2 when present, rest). -/
def closePipe (g1 g2 : Str) : Str → Option (Str × Str × Option Str × Str)
  | ']' :: ']' :: rem =>
    some ('[' :: '[' :: (g1 ++ '|' :: g2 ++ [']', ']']), g1, some g2, rem)
  | _ => none

/-- Continue a match after the nonempty group 1: either the closing
brackets, or a pipe followed by a nonempty display group and the
closing brackets. -/
def closeLink (g1 : Str) : Str → Option (Str × Str × Option Str × Str)
  | ']' :: ']' :: rem =>
    some ('[' :: '[' :: (g1 ++ [']', ']']), g1, none, rem)
  | '|' :: rest2 =>
    if (rest2.takeWhile isDisplayChar).isEmpty then none
    else closePipe g1 (rest2.takeWhile isDisplayChar)
      (rest2.dropWhile isDisplayChar)
  | _ => none

/-- Continue a match after the two opening brackets: group 1 is the
maximal nonempty run of target characters. -/
def afterBrackets (rest : Str) : Option (Str × Str × Option Str × Str) :=
  if (rest.takeWhile isTargetChar).isEmpty then none
  else closeLink (rest.takeWhile isTargetChar) (rest.dropWhile isTargetChar)

/-- Attempt to match WIKI_LINK_PATTERN at the head of the string.
Returns (matched text, raw group 1, raw group 2 when present, rest). -/
def matchLinkAt : Str → Option (Str × Str × Option Str × Str)
  | '[' :: '[' :: rest => afterBrackets rest
  | _ => none

/-- All WIKI_LINK_PATTERN matches in one line, leftmost and
non-overlapping, as re.finditer yields them (raw groups).  The fuel is
an upper bound on the scan length; fuel at least the string length is
always sufficient. -/
def lineLinks : Nat → Str → List (Str × Option Str)
  | 0, _ => []
  | _, [] => []
  | f + 1, c :: rest =>
    match matchLinkAt (c :: rest) with
    | some (_, g1, g2, rem) => (g1, g2) :: lineLinks f rem
    | none => lineLinks f rest

/-- A parsed wiki link, as the WikiLink dataclass. -/
structure WikiLink where
  target_path : Str
  display_text : Option Str
  line_number : Nat
deriving DecidableEq, Repr

/-- Helper for extract_links: process the lines of the content with
1-based line numbers, stripping both captured groups. -/
def extractLinksFrom : Nat → List Str → List WikiLink
  | _, [] => []
  | n, l :: ls =>
    ((lineLinks l.length l).map fun p =>
      ⟨pyStrip p.1, p.2.map pyStrip, n⟩) ++ extractLinksFrom (n + 1) ls

/-- Embeds extract_links: split the content on newlines and collect all
wiki links per line with 1-based line numbers. -/
def extract_links (content : Str) : List WikiLink :=
  extractLinksFrom 1 (splitLines content)

/-- The replacement string built by the replacer closure in
replace_link_target: display text, when present, is kept verbatim. -/
def mkReplacement (newPath : Str) : Option Str → Str
  | some d => '[' :: '[' :: (newPath ++ '|' :: d ++ [']', ']'])
  | none => '[' :: '[' :: (newPath ++ [']', ']'])

/-- Regex substitution pass of replace_link_target over the whole
content: each match whose stripped target equals old is replaced,
every other match is emitted verbatim, text outside matches is
untouched. -/
def subLinks (oldPath newPath : Str) : Nat → Str → Str
  | 0, s => s
  | _, [] => []
  | f + 1, c :: rest =>
    match matchLinkAt (c :: rest) with
    | some (m, g1, g2, rem) =>
      (if pyStrip g1 = oldPath then mkReplacement newPath g2 else m)
        ++ subLinks oldPath newPath f rem
    | none => c :: subLinks oldPath newPath f rest

/-- Embeds replace_link_target(content, old_path, new_path). -/
def replace_link_target (content oldPath newPath : Str) : Str :=
  subLinks oldPath newPath content.length content

/-! ## Backlinks index (src/notes/links/index.py)

The in-memory _links mapping target path to source path to line-number
list is modelled as insertion-ordered association lists, which is
exactly the behaviour of Python dicts.  JSON persistence (_save and
_ensure_loaded) only round-trips this value through disk and is not
modelled. -/

namespace BacklinksIndex

/-- Information about a backlink, as the BacklinkInfo dataclass. -/
structure BacklinkInfo where
  source_path : Str
  line_numbers : List Nat
deriving DecidableEq, Repr

/-- Inner dict: source path to line numbers, insertion ordered. -/
abbrev SrcMap := List (Str × List Nat)

/-- The _links dict: target path to inner dict, insertion ordered. -/
abbrev LinksMap := List (Str × SrcMap)

/-- First loop of update_note_links: delete the source from every
target entry and prune targets whose inner dict became empty. -/
def removeSourceFrom (src : Str) : LinksMap → LinksMap
  | [] => []
  | (t, m) :: rest =>
    if m.any fun p => decide (p.1 = src) then
      let m2 := m.filter fun p => decide (¬ p.1 = src)
      if m2.isEmpty then removeSourceFrom src rest
      else (t, m2) :: removeSourceFrom src rest
    else (t, m) :: removeSourceFrom src rest

/-- Append a line number unless already present (the duplicate check in
update_note_links). -/
def addLineTo (line : Nat) (lines : List Nat) : List Nat :=
  if line ∈ lines then lines else lines ++ [line]

/-- Insert one line number under a source in an inner dict, creating
the source entry at the end when absent. -/
def addSrcLine (src : Str) (line : Nat) (m : SrcMap) : SrcMap :=
  if m.any fun p => decide (p.1 = src) then
    m.map fun p => if p.1 = src then (p.1, addLineTo line p.2) else p
  else m ++ [(src, [line])]

/-- Second loop of update_note_links, for a single link: create the
target and source entries when absent and record the line number once. -/
def addLink (src target : Str) (line : Nat) (links : LinksMap) : LinksMap :=
  if links.any fun p => decide (p.1 = target) then
    links.map fun p => if p.1 = target then (p.1, addSrcLine src line p.2) else p
  else links ++ [(target, [(src, [line])])]

/-- Embeds BacklinksIndex.update_note_links: full replace for the
source path, then insertion of the new link set. -/
def update_note_links (src : Str) (ls : List WikiLink) (links : LinksMap) :
    LinksMap :=
  ls.foldl (fun acc l => addLink src l.target_path l.line_number acc)
    (removeSourceFrom src links)

/-- Embeds BacklinksIndex.remove_note: drop the deleted note as a
source everywhere. -/
def remove_note (path : Str) (links : LinksMap) : LinksMap :=
  removeSourceFrom path links

/-- Embeds BacklinksIndex.get_backlinks: empty list for an unknown
target, otherwise one BacklinkInfo per source with sorted line
numbers. -/
def get_backlinks (target : Str) (links : LinksMap) : List BacklinkInfo :=
  match links.find? fun p => decide (p.1 = target) with
  | none => []
  | some (_, m) => m.map fun p => ⟨p.1, sortNat p.2⟩

/-- Embeds BacklinksIndex.clear. -/
def clear : LinksMap := []

/-- Lookup of the line-number list recorded for one (target, source)
pair, reading the nested dicts as Python does. -/
def entryLines (links : LinksMap) (t s : Str) : Option (List Nat) :=
  (links.find? fun p => decide (p.1 = t)).bind fun p =>
    (p.2.find? fun q => decide (q.1 = s)).map (·.2)

/-- Line numbers of the links in a list that point at one target, in
list order. -/
def linesOf (t : Str) (L : List WikiLink) : List Nat :=
  (L.filter fun l => decide (l.target_path = t)).map (·.line_number)

/-- Accumulate line numbers one at a time as the insertion loop does
for a single (target, source) pair. -/
def foldLines (o : Option (List Nat)) (ns : List Nat) : Option (List Nat) :=
  ns.foldl (fun acc n => some (addLineTo n (acc.getD []))) o

end BacklinksIndex

/-! ## Naive datetimes

The code only ever builds naive (timezone-free) datetime values via
datetime.now, strptime and fromisoformat, so a datetime is modelled by
its seven components.  Calendar day arithmetic (timedelta addition and
subtraction of whole days) goes through the proleptic Gregorian
day-count conversions, with the datetime range limits of year 1 to
9999 raising an overflow error exactly as Python does. -/

/-- Digit character for a value below ten. -/
def digitChar (n : Nat) : Char := Char.ofNat (48 + n)

/-- Numeric value of a digit character. -/
def digitVal (c : Char) : Nat := c.toNat - 48

/-- Two-digit zero-padded decimal rendering (for values below 100). -/
def pad2 (n : Nat) : Str := [digitChar (n / 10), digitChar (n % 10)]

/-- Four-digit zero-padded decimal rendering (for values below 10000). -/
def pad4 (n : Nat) : Str :=
  [digitChar (n / 1000), digitChar (n / 100 % 10), digitChar (n / 10 % 10),
    digitChar (n % 10)]

/-- Six-digit zero-padded decimal rendering (for values below 1000000). -/
def pad6 (n : Nat) : Str :=
  [digitChar (n / 100000), digitChar (n / 10000 % 10), digitChar (n / 1000 % 10),
    digitChar (n / 100 % 10), digitChar (n / 10 % 10), digitChar (n % 10)]

/-- A naive Python datetime value. -/
structure DateTime where
  year : Nat
  month : Nat
  day : Nat
  hour : Nat
  minute : Nat
  second : Nat
  microsecond : Nat
deriving DecidableEq, Repr

/-- Gregorian leap year test. -/
def isLeap (y : Nat) : Bool :=
  (y % 4 == 0 && y % 100 != 0) || y % 400 == 0

/-- Length of a month in the proleptic Gregorian calendar. -/
def daysInMonth (y m : Nat) : Nat :=
  if m = 2 then (if isLeap y then 29 else 28)
  else if m = 4 ∨ m = 6 ∨ m = 9 ∨ m = 11 then 30
  else 31

/-- The invariant every Python datetime satisfies. -/
def DateTime.Valid (dt : DateTime) : Prop :=
  1 ≤ dt.year ∧ dt.year ≤ 9999 ∧ 1 ≤ dt.month ∧ dt.month ≤ 12 ∧
    1 ≤ dt.day ∧ dt.day ≤ daysInMonth dt.year dt.month ∧
    dt.hour < 24 ∧ dt.minute < 60 ∧ dt.second < 60 ∧ dt.microsecond < 1000000

instance (dt : DateTime) : Decidable dt.Valid := by
  unfold DateTime.Valid; infer_instance

/-- Day count of a civil date, measured from 0000-03-01 of the
proleptic Gregorian calendar. -/
def daysFromCivil (y m d : Nat) : Nat :=
  let y2 := if m ≤ 2 then y - 1 else y
  let era := y2 / 400
  let yoe := y2 % 400
  let mp := (m + 9) % 12
  let doy := (153 * mp + 2) / 5 + (d - 1)
  let doe := yoe * 365 + yoe / 4 - yoe / 100 + doy
  era * 146097 + doe

/-- Civil date (year, month, day) of a day count. -/
def civilFromDays (z : Nat) : Nat × Nat × Nat :=
  let era := z / 146097
  let doe := z % 146097
  let yoe := (doe - doe / 1460 + doe / 36524 - doe / 146096) / 365
  let y := yoe + era * 400
  let doy := doe - (365 * yoe + yoe / 4 - yoe / 100)
  let mp := (5 * doy + 2) / 153
  let d := doy - (153 * mp + 2) / 5 + 1
  let m := if mp < 10 then mp + 3 else mp - 9
  (if m ≤ 2 then y + 1 else y, m, d)

/-- Day count of the smallest Python datetime, 0001-01-01. -/
def minDayCount : Nat := daysFromCivil 1 1 1

/-- Day count of the largest Python datetime date, 9999-12-31. -/
def maxDayCount : Nat := daysFromCivil 9999 12 31

/-- Add or subtract a whole-day timedelta, raising OverflowError (as
the error value) outside the datetime range, exactly as Python. -/
def shiftDays (dt : DateTime) (plus : Bool) (days : Nat) : Except Unit DateTime :=
  let z := daysFromCivil dt.year dt.month dt.day
  if plus then
    if z + days ≤ maxDayCount then
      let c := civilFromDays (z + days)
      .ok ⟨c.1, c.2.1, c.2.2, dt.hour, dt.minute, dt.second, dt.microsecond⟩
    else .error ()
  else
    if minDayCount + days ≤ z then
      let c := civilFromDays (z - days)
      .ok ⟨c.1, c.2.1, c.2.2, dt.hour, dt.minute, dt.second, dt.microsecond⟩
    else .error ()

/-- Embeds datetime.isoformat(): microseconds appear only when
nonzero. -/
def isoformat (dt : DateTime) : Str :=
  pad4 dt.year ++ '-' :: pad2 dt.month ++ '-' :: pad2 dt.day ++
    'T' :: pad2 dt.hour ++ ':' :: pad2 dt.minute ++ ':' :: pad2 dt.second ++
    (if dt.microsecond = 0 then [] else '.' :: pad6 dt.microsecond)

/-- Embeds strftime("%Y-%m-%dT%H:%M:%SZ") as used by the date-math
preprocessor (microseconds are dropped by this format). -/
def strftimeZ (dt : DateTime) : Str :=
  pad4 dt.year ++ '-' :: pad2 dt.month ++ '-' :: pad2 dt.day ++
    'T' :: pad2 dt.hour ++ ':' :: pad2 dt.minute ++ ':' :: pad2 dt.second ++ ['Z']

/-- Read exactly two digit characters. -/
def read2 : Str → Option (Nat × Str)
  | a :: b :: rest =>
    if a.isDigit && b.isDigit then some (digitVal a * 10 + digitVal b, rest)
    else none
  | _ => none

/-- Read exactly four digit characters. -/
def read4 : Str → Option (Nat × Str)
  | a :: b :: c :: d :: rest =>
    if a.isDigit && b.isDigit && c.isDigit && d.isDigit then
      some (((digitVal a * 10 + digitVal b) * 10 + digitVal c) * 10 + digitVal d,
        rest)
    else none
  | _ => none

/-- Read exactly six digit characters. -/
def read6 : Str → Option (Nat × Str)
  | a :: b :: c :: d :: e :: f :: rest =>
    if a.isDigit && b.isDigit && c.isDigit && d.isDigit && e.isDigit && f.isDigit
    then
      some (((((digitVal a * 10 + digitVal b) * 10 + digitVal c) * 10
        + digitVal d) * 10 + digitVal e) * 10 + digitVal f, rest)
    else none
  | _ => none

/-- Expect one literal character. -/
def expectCh (c : Char) : Str → Option Str
  | x :: rest => if x = c then some rest else none
  | [] => none

/-- Embeds datetime.fromisoformat on the grammar isoformat emits:
date, optional T-separated time, optional six-digit fraction, with the
component range validation fromisoformat performs.  The broader
separators Python also accepts never occur in this code base. -/
def fromisoformat (s : Str) : Option DateTime := do
  let (y, r1) ← read4 s
  let r2 ← expectCh '-' r1
  let (mo, r3) ← read2 r2
  let r4 ← expectCh '-' r3
  let (d, r5) ← read2 r4
  let dt ←
    match r5 with
    | [] => some (DateTime.mk y mo d 0 0 0 0)
    | 'T' :: r6 => do
      let (h, r7) ← read2 r6
      let r8 ← expectCh ':' r7
      let (mi, r9) ← read2 r8
      let r10 ← expectCh ':' r9
      let (sec, r11) ← read2 r10
      match r11 with
      | [] => some (DateTime.mk y mo d h mi sec 0)
      | '.' :: r12 => do
        let (us, r13) ← read6 r12
        match r13 with
        | [] => some (DateTime.mk y mo d h mi sec us)
        | _ => none
      | _ => none
    | _ => none
  if dt.Valid then some dt else none

/-! ## Note model (src/notes/models/note.py) -/

/-- A note with content and metadata, as the pydantic Note model. -/
structure Note where
  path : Str
  title : Str
  content : Str
  tags : List Str
  created_at : DateTime
  updated_at : DateTime
deriving DecidableEq, Repr

/-- Character class of the path validator regex: letters, digits,
underscore, hyphen and slash (ASCII reading of the word class). -/
def isPathChar (c : Char) : Bool :=
  c.isAlphanum || c == '_' || c == '-' || c == '/'

/-- Character class of the tag validator regex [\w\-]. -/
def isTagChar (c : Char) : Bool := c.isAlphanum || c == '_' || c == '-'

/-- Embeds the validate_path field validator. -/
def validatePath (p : Str) : Except Str Str :=
  let v := lstripSlash (pyStrip p)
  if v.isEmpty then .error (pstr "Path cannot be empty")
  else if containsSub (pstr "..") v then .error (pstr "Path cannot contain ..")
  else if v.all isPathChar then .ok v
  else .error (pstr "Path has invalid characters")

/-- Embeds the validate_title field validator. -/
def validateTitle (t : Str) : Except Str Str :=
  let v := pyStrip t
  if v.isEmpty then .error (pstr "Title cannot be empty")
  else if 200 < v.length then .error (pstr "Title too long")
  else .ok v

/-- Embeds the validate_tags field validator: invalid tags are
silently dropped. -/
def validateTags (ts : List Str) : List Str :=
  ts.filterMap fun t =>
    let v := pyStrip t
    if v.isEmpty then none
    else if v.all isTagChar then some v else none

/-- Construct a Note through the pydantic validators, as any call of
the Note constructor does. -/
def mkNote (path title content : Str) (tags : List Str)
    (created updated : DateTime) : Except Str Note := do
  let p ← validatePath path
  let t ← validateTitle title
  .ok ⟨p, t, content, validateTags tags, created, updated⟩

/-- Join tags with ", " as the tags frontmatter line does. -/
def joinComma : List Str → Str
  | [] => []
  | [t] => t
  | t :: ts => t ++ ',' :: ' ' :: joinComma ts

/-- Embeds Note.to_markdown: frontmatter block then the raw body with
no separator beyond the newline that closes the block. -/
def to_markdown (n : Note) : Str :=
  pstr "---\ntitle: " ++ n.title ++
    pstr "\ncreated: " ++ isoformat n.created_at ++
    pstr "\nupdated: " ++ isoformat n.updated_at ++
    (if n.tags.isEmpty then [] else pstr "\ntags: [" ++ joinComma n.tags ++ [']']) ++
    pstr "\n---\n" ++ n.content

/-- Search for the first occurrence of the newline-delimited closing
fence, as the non-greedy group of the frontmatter regex does: returns
the text before it and the text after it. -/
def findSep : Nat → Str → Option (Str × Str)
  | 0, _ => none
  | _, [] => none
  | f + 1, c :: rest =>
    if c = '\n' ∧ (pstr "---\n").isPrefixOf rest then some ([], rest.drop 4)
    else
      match findSep f rest with
      | some (a, b) => some (c :: a, b)
      | none => none

/-- The frontmatter regex match of from_markdown: an anchored opening
fence, a non-greedy body, and the first closing fence. -/
def fmSplit (s : Str) : Option (Str × Str) :=
  if (pstr "---\n").isPrefixOf s then findSep (s.drop 4).length (s.drop 4)
  else none

/-- Accumulator for the frontmatter field loop of from_markdown. -/
structure FmFields where
  title : Str
  tags : List Str
  created_at : DateTime
  updated_at : DateTime

/-- Embeds the tags frontmatter line parser: the [tag1, tag2] format
split on commas with empty pieces dropped. -/
def parseTagsLine (s : Str) : Option (List Str) :=
  match s with
  | '[' :: rest =>
    match rest.reverse with
    | ']' :: revInner =>
      some ((splitOnChar ',' revInner.reverse).filterMap fun t =>
        let v := pyStrip t
        if v.isEmpty then none else some v)
    | _ => none
  | [] => none
  | _ => none

/-- One iteration of the frontmatter field loop. -/
def applyFmLine (acc : FmFields) (line : Str) : FmFields :=
  if (pstr "title:").isPrefixOf line then
    { acc with title := pyStrip (line.drop 6) }
  else if (pstr "tags:").isPrefixOf line then
    match parseTagsLine (pyStrip (line.drop 5)) with
    | some ts => { acc with tags := ts }
    | none => acc
  else if (pstr "created:").isPrefixOf line then
    match fromisoformat (pyStrip (line.drop 8)) with
    | some dt => { acc with created_at := dt }
    | none => acc
  else if (pstr "updated:").isPrefixOf line then
    match fromisoformat (pyStrip (line.drop 8)) with
    | some dt => { acc with updated_at := dt }
    | none => acc
  else acc

/-- Embeds Note.from_markdown: parse the optional frontmatter block,
fall back to the last path segment, empty tags and the current time
(the now argument models datetime.now()), then run the pydantic
validators via the class constructor. -/
def from_markdown (now : DateTime) (path content : Str) : Except Str Note :=
  let dflt : FmFields :=
    ⟨(path.splitOn '/').getLastD [], [], now, now⟩
  let (fields, body) :=
    match fmSplit content with
    | some (fm, body) => ((splitLines fm).foldl applyFmLine dflt, body)
    | none => (dflt, content)
  mkNote path fields.title body fields.tags fields.created_at fields.updated_at

/-- The frontmatter lines a note serializes to, in order. -/
def fmLines (n : Note) : List Str :=
  [pstr "title: " ++ n.title,
    pstr "created: " ++ isoformat n.created_at,
    pstr "updated: " ++ isoformat n.updated_at] ++
  (if n.tags.isEmpty then []
   else [pstr "tags: [" ++ joinComma n.tags ++ [']']])

/-- Lines joined by newlines, closed by the final fence and the body:
the text of a serialized note after its opening fence. -/
def joined (lines : List Str) (body : Str) : Str :=
  lines.foldr (fun l acc => l ++ '\n' :: acc) (pstr "---\n" ++ body)

/-- Lines joined by newlines with no trailing newline: the frontmatter
group the regex captures. -/
def headerOf : List Str → Str
  | [] => []
  | [l] => l
  | l :: ls => l ++ '\n' :: headerOf ls

/-- A note as produced by the pydantic validators: every field is a
fixed point of its validator and the timestamps are in range.  Every
Note the code constructs satisfies this. -/
def NoteValid (n : Note) : Prop :=
  validatePath n.path = .ok n.path ∧
  validateTitle n.title = .ok n.title ∧
  (∀ t ∈ n.tags, t ≠ [] ∧ (∀ c ∈ t, isTagChar c = true)) ∧
  n.created_at.Valid ∧ n.updated_at.Valid

/-! ## Filesystem storage (src/botnotes/storage/filesystem.py)

The notes directory is modelled as an association list from the
sanitized note path to the text of its markdown file.  Path resolution
is modelled lexically (no symbolic links): a path escapes the storage
root exactly when its parent-directory segments take it above the
root at some point. -/

namespace FilesystemStorage

/-- The on-disk state: sanitized path to file text. -/
abbrev Disk := List (Str × Str)

/-- Write a file, replacing an existing one at the same path. -/
def setFile (d : Disk) (key text : Str) : Disk :=
  if d.any fun p => decide (p.1 = key) then
    d.map fun p => if p.1 = key then (p.1, text) else p
  else d ++ [(key, text)]

/-- Read a file. -/
def getFile (d : Disk) (key : Str) : Option Str :=
  (d.find? fun p => decide (p.1 = key)).map (·.2)

/-- Lexical model of resolving the segments against the storage root:
true when the walk ever climbs above the root. -/
def segsEscape : List Str → Nat → Bool
  | [], _ => false
  | s :: rest, depth =>
    if s = [] ∨ s = ['.'] then segsEscape rest depth
    else if s = pstr ".." then
      if depth = 0 then true else segsEscape rest (depth - 1)
    else segsEscape rest (depth + 1)

/-- Embeds FilesystemStorage._sanitize_path: strip whitespace, strip
leading slashes, reject the empty path and any path whose resolved
file location <clean>.md escapes the storage root. -/
def sanitize (path : Str) : Except Str Str :=
  let clean := lstripSlash (pyStrip path)
  if clean.isEmpty then .error (pstr "Path cannot be empty")
  else
    let segs := clean.splitOn '/'
    let fileSegs := segs.dropLast ++ [segs.getLastD [] ++ pstr ".md"]
    if segsEscape fileSegs 0 then .error (pstr "Invalid path")
    else .ok clean

/-- Embeds FilesystemStorage.save: sanitize the path and write the
serialized note, creating parent folders implicitly.  There is no
overlap or index-note check in this code. -/
def save (n : Note) (d : Disk) : Except Str Disk := do
  let clean ← sanitize n.path
  .ok (setFile d clean (to_markdown n))

/-- Embeds FilesystemStorage.load: absent file is a None result, a
present file is parsed by Note.from_markdown with the original path. -/
def load (now : DateTime) (path : Str) (d : Disk) : Except Str (Option Note) := do
  let clean ← sanitize path
  match getFile d clean with
  | none => .ok none
  | some text => do
    let n ← from_markdown now path text
    .ok (some n)

/-- Embeds FilesystemStorage.delete: remove the file when present and
report whether anything was removed. -/
def deleteFile (path : Str) (d : Disk) : Except Str (Bool × Disk) := do
  let clean ← sanitize path
  if d.any fun p => decide (p.1 = clean) then
    .ok (true, d.filter fun p => decide (¬ p.1 = clean))
  else .ok (false, d)

/-- Embeds FilesystemStorage.list_all: every stored path, sorted. -/
def list_all (d : Disk) : List Str := sortStr (d.map (·.1))

/-- Result shape of list_by_prefix as this code returns it: a dict
with exactly the keys notes and subfolders. -/
structure FolderListing where
  notes : List Str
  subfolders : List Str
deriving DecidableEq, Repr

/-- Append a string to a list when absent (models adding to a set). -/
def insertAbsent (x : Str) (l : List Str) : List Str :=
  if x ∈ l then l else l ++ [x]

/-- Scan of the top-level branch of list_by_prefix. -/
def scanTop : List Str → List Str × List Str → List Str × List Str
  | [], acc => acc
  | p :: ps, (notes, subs) =>
    if decide ('/' ∈ p) then
      scanTop ps (notes, insertAbsent (p.takeWhile fun c => !(c == '/')) subs)
    else scanTop ps (notes ++ [p], subs)

/-- Scan of the non-empty-folder branch of list_by_prefix. -/
def scanFolder (preSlash : Str) : List Str → List Str × List Str → List Str × List Str
  | [], acc => acc
  | p :: ps, (notes, subs) =>
    if preSlash.isPrefixOf p then
      let remainder := p.drop preSlash.length
      if decide ('/' ∈ remainder) then
        scanFolder preSlash ps
          (notes, insertAbsent (preSlash ++ remainder.takeWhile fun c => !(c == '/')) subs)
      else scanFolder preSlash ps (notes ++ [p], subs)
    else scanFolder preSlash ps (notes, subs)

/-- Embeds FilesystemStorage.list_by_prefix of this code: direct notes
and immediate subfolders, both sorted; a note at exactly the folder
path is appended unconditionally; the result carries no index-note
information. -/
def listInFolder (d : Disk) (pre : Str) : FolderListing :=
  let pre2 := stripSlash (pyStrip pre)
  let paths := list_all d
  if pre2.isEmpty then
    let (notes, subs) := scanTop paths ([], [])
    ⟨sortStr notes, sortStr subs⟩
  else
    let preSlash := pre2 ++ ['/']
    let (notes, subs) := scanFolder preSlash paths ([], [])
    let notes2 := if pre2 ∈ paths then notes ++ [pre2] else notes
    ⟨sortStr notes2, sortStr subs⟩

end FilesystemStorage

/-! ## Search index and date-math preprocessing
(src/notes/search/tantivy_index.py)

The tantivy index is modelled as the list of documents it holds;
index_note is delete-by-path followed by add.  The date-math
preprocessor is a faithful model of the re.sub pass: both regex
alternatives are free of useful backtracking (every quantified class
excludes its follow set), so a deterministic longest-match scanner
reproduces the engine exactly. -/

namespace SearchIndex

/-- A document stored in the search index. -/
structure SearchDoc where
  path : Str
  title : Str
  content : Str
  tags : List Str
  created_at : DateTime
  updated_at : DateTime
deriving DecidableEq, Repr

/-- Embeds SearchIndex.index_note: delete any document with the same
path, then add the new one. -/
def index_note (n : Note) (docs : List SearchDoc) : List SearchDoc :=
  (docs.filter fun doc => decide (¬ doc.path = n.path)) ++
    [⟨n.path, n.title, n.content, n.tags, n.created_at, n.updated_at⟩]

/-- Embeds SearchIndex.remove_note. -/
def remove_note (path : Str) (docs : List SearchDoc) : List SearchDoc :=
  docs.filter fun doc => decide (¬ doc.path = path)

/-- Embeds SearchIndex.rebuild: clear then index every note. -/
def rebuild (notes : List Note) : List SearchDoc :=
  notes.foldl (fun acc n => index_note n acc) []

end SearchIndex

/-- Numeric value of a digit string. -/
def natOfDigits (ds : Str) : Nat := ds.foldl (fun a c => a * 10 + digitVal c) 0

/-- Days denoted by one duration unit as _parse_duration computes it:
d is days, w is weeks, M is thirty days, y is 365 days. -/
def unitDays (n : Nat) : Char → Nat
  | 'd' => n
  | 'w' => 7 * n
  | 'M' => 30 * n
  | 'y' => 365 * n
  | _ => 0

/-- Match the arithmetic tail regex ([+-])(\d+[dwMy]) at the head of
the string: sign, amount, unit, rest. -/
def matchArith : Str → Option (Bool × Nat × Char × Str)
  | c :: rest =>
    if c = '+' ∨ c = '-' then
      let ds := rest.takeWhile Char.isDigit
      let rest2 := rest.dropWhile Char.isDigit
      if ds.isEmpty then none
      else
        match rest2 with
        | u :: rest3 =>
          if u = 'd' ∨ u = 'w' ∨ u = 'M' ∨ u = 'y' then
            some (c = '+', natOfDigits ds, u, rest3)
          else none
        | [] => none
    else none
  | [] => none

/-- Match the first alternative of the date-math pattern at the head:
the literal now with an optional arithmetic tail. -/
def matchNowTok : Str → Option (Option (Bool × Nat × Char) × Str)
  | 'n' :: 'o' :: 'w' :: rest =>
    match matchArith rest with
    | some (p, n, u, r) => some (some (p, n, u), r)
    | none => some (none, rest)
  | _ => none

/-- Match the second alternative at the head: a YYYY-MM-DD token not
followed by T or a further digit, with an optional arithmetic tail. -/
def matchDateTok :
    Str → Option (Nat × Nat × Nat × Option (Bool × Nat × Char) × Str)
  | s => do
    let (y, r1) ← read4 s
    let r2 ← expectCh '-' r1
    let (mo, r3) ← read2 r2
    let r4 ← expectCh '-' r3
    let (d, r5) ← read2 r4
    match r5 with
    | c :: _ => if c = 'T' ∨ c.isDigit then none else lookDone y mo d r5
    | [] => lookDone y mo d r5
where
  lookDone (y mo d : Nat) (r5 : Str) :
      Option (Nat × Nat × Nat × Option (Bool × Nat × Char) × Str) :=
    match matchArith r5 with
    | some (p, n, u, r) => some (y, mo, d, some (p, n, u), r)
    | none => some (y, mo, d, none, r5)

/-- Embeds datetime.strptime(text, "%Y-%m-%d"): component validation
rejects impossible dates with a ValueError, modelled as the error
value. -/
def mkDateStrict (y mo d : Nat) : Except Unit DateTime :=
  if 1 ≤ y ∧ y ≤ 9999 ∧ 1 ≤ mo ∧ mo ≤ 12 ∧ 1 ≤ d ∧ d ≤ daysInMonth y mo then
    .ok ⟨y, mo, d, 0, 0, 0, 0⟩
  else .error ()

/-- Apply the optional arithmetic tail to a base datetime. -/
def applyArith (base : DateTime) : Option (Bool × Nat × Char) → Except Unit DateTime
  | none => .ok base
  | some (plus, n, u) => shiftDays base plus (unitDays n u)

/-- The re.sub scan of _preprocess_date_math: leftmost matches of the
two alternatives, rewritten through replace_date_expr; an exception
raised inside the replacement aborts the whole call. -/
def ppScan (now : DateTime) : Nat → Str → Except Unit Str
  | 0, s => .ok s
  | _, [] => .ok []
  | f + 1, c :: rest =>
    match matchNowTok (c :: rest) with
    | some (ar, rem) => do
      let base ← applyArith now ar
      let tail ← ppScan now f rem
      .ok (strftimeZ base ++ tail)
    | none =>
      match matchDateTok (c :: rest) with
      | some (y, mo, d, ar, rem) => do
        let base ← mkDateStrict y mo d
        let shifted ← applyArith base ar
        let tail ← ppScan now f rem
        .ok (strftimeZ shifted ++ tail)
      | none => do
        let tail ← ppScan now f rest
        .ok (c :: tail)

/-- Embeds _preprocess_date_math with the current clock supplied as
the now argument. -/
def preprocessDateMath (now : DateTime) (q : Str) : Except Unit Str :=
  ppScan now q.length q

/-- Embeds BacklinksIndex.rebuild: clear, then index the links of
every supplied note, skipping notes without links. -/
def backlinksRebuild (notes : List Note) : BacklinksIndex.LinksMap :=
  notes.foldl
    (fun acc n =>
      let ls := extract_links n.content
      if ls.isEmpty then acc else BacklinksIndex.update_note_links n.path ls acc)
    []

/-! ## Note service (src/botnotes/services/note_service.py)

The service owns the storage, search index, backlinks index and the
git journal; the journal is modelled as the append-only list of
(path, operation) commits it receives.  Every public operation runs
under the lock for its whole duration, which the single-threaded
state-passing model renders as plain sequencing. -/

namespace NoteService

open FilesystemStorage SearchIndex BacklinksIndex

/-- Combined mutable state owned by the service. -/
structure ServiceState where
  disk : Disk
  docs : List SearchDoc
  links : LinksMap
  gitLog : List (Str × Str)
deriving DecidableEq, Repr

/-- Result of update_note, as the UpdateResult dataclass. -/
structure UpdateResult where
  note : Note
  backlinks_updated : List Str
  backlinks_warning : List BacklinkInfo
deriving DecidableEq, Repr

/-- Embeds NoteService.create_note: build the note through the
validators, save it, index it, record its outgoing links under the
raw path argument, and commit to the journal.  There is no occupancy
or overlap check anywhere on this path. -/
def create_note (now : DateTime) (path title content : Str) (tags : List Str)
    (st : ServiceState) : Except Str (Note × ServiceState) := do
  let note ← mkNote path title content tags now now
  let disk2 ← save note st.disk
  let docs2 := index_note note st.docs
  let links2 := update_note_links path (extract_links content) st.links
  .ok (note, ⟨disk2, docs2, links2, st.gitLog ++ [(path, pstr "create")]⟩)

/-- Set union, update and difference on tags as the incremental tag
branch computes them, ending with sorted(). -/
def applyTagOps (cur : List Str) (addTags removeTags : Option (List Str)) :
    List Str :=
  let base := cur.foldl (fun acc t => insertAbsent t acc) []
  let added := (addTags.getD []).foldl (fun acc t => insertAbsent t acc) base
  sortStr (added.filter fun t => decide (t ∉ removeTags.getD []))

/-- The loop body of the move branch over one inbound backlink: load
the linking note, rewrite its content, and when the rewrite changed
anything save it and recompute its outgoing links, collecting its
path.  The linking note is not re-indexed for search by this code. -/
def rewriteOne (now : DateTime) (path newPath : Str)
    (acc : Disk × LinksMap × List Str) (bl : BacklinkInfo) :
    Except Str (Disk × LinksMap × List Str) := do
  let (disk, links, updated) := acc
  let srcNote? ← load now bl.source_path disk
  match srcNote? with
  | none => .ok (disk, links, updated)
  | some srcNote =>
    let newContent := replace_link_target srcNote.content path newPath
    if newContent = srcNote.content then .ok (disk, links, updated)
    else do
      let srcNote2 := { srcNote with content := newContent, updated_at := now }
      let disk2 ← save srcNote2 disk
      let links2 :=
        update_note_links bl.source_path (extract_links srcNote2.content) links
      .ok (disk2, links2, updated ++ [bl.source_path])

/-- Embeds NoteService.update_note.  Field assignments on the loaded
note are plain attribute writes (pydantic does not re-validate
assignments by default).  A missing note returns the None result with
the state untouched. -/
def update_note (now : DateTime) (path : Str) (title content : Option Str)
    (tags addTags removeTags : Option (List Str)) (newPath : Option Str)
    (updateBacklinks : Bool) (st : ServiceState) :
    Except Str (Option UpdateResult × ServiceState) := do
  if tags.isSome ∧ (addTags.isSome ∨ removeTags.isSome) then
    .error (pstr "Cannot use tags with add_tags or remove_tags")
  else do
    let n0 ← load now path st.disk
    match n0 with
    | none => .ok (none, st)
    | some note0 =>
      let note1 :=
        { note0 with
          title := title.getD note0.title
          content := content.getD note0.content }
      let note2 :=
        match tags with
        | some ts => { note1 with tags := ts }
        | none =>
          if addTags.isSome ∨ removeTags.isSome then
            { note1 with tags := applyTagOps note1.tags addTags removeTags }
          else note1
      let note3 := { note2 with updated_at := now }
      match newPath with
      | some np =>
        if np = path then inPlace note3
        else do
          let existing ← load now np st.disk
          if existing.isSome then
            .error (pstr "Note already exists at new path")
          else do
            let incoming := get_backlinks path st.links
            let (disk1, links1, updated) ←
              if updateBacklinks ∧ ¬ incoming.isEmpty then
                incoming.foldlM (rewriteOne now path np) (st.disk, st.links, [])
              else .ok (st.disk, st.links, [])
            let warning := if updateBacklinks ∨ incoming.isEmpty then [] else incoming
            let (_, disk2) ← deleteFile path disk1
            let docs2 := SearchIndex.remove_note path st.docs
            let links2 := BacklinksIndex.remove_note path links1
            let note4 := { note3 with path := np }
            let disk3 ← save note4 disk2
            let docs3 := index_note note4 docs2
            let links3 := update_note_links np (extract_links note4.content) links2
            .ok (some ⟨note4, updated, warning⟩,
              ⟨disk3, docs3, links3, st.gitLog ++ [(np, pstr "move")]⟩)
      | none => inPlace note3
where
  inPlace (note3 : Note) : Except Str (Option UpdateResult × ServiceState) := do
    let disk2 ← save note3 st.disk
    let docs2 := index_note note3 st.docs
    let links2 :=
      if content.isSome then
        update_note_links path (extract_links note3.content) st.links
      else st.links
    .ok (some ⟨note3, [], []⟩, ⟨disk2, docs2, links2, st.gitLog ++ [(path, pstr "update")]⟩)

/-- Embeds NoteService.get_backlinks (a read under the shared lock). -/
def service_get_backlinks (path : Str) (st : ServiceState) : List BacklinkInfo :=
  get_backlinks path st.links

/-- Embeds the note-loading loop of rebuild_indexes: load every listed
path and keep the notes that load. -/
def loadAllNotes (now : DateTime) (d : Disk) : Except Str (List Note) :=
  (list_all d).foldlM
    (fun acc p => do
      let n? ← load now p d
      .ok (acc ++ n?.toList))
    []

/-- Result of rebuild_indexes, as the RebuildResult dataclass. -/
structure RebuildResult where
  notes_processed : Nat
  search_index_rebuilt : Bool
  backlinks_index_rebuilt : Bool
deriving DecidableEq, Repr

/-- Embeds NoteService.rebuild_indexes: load all notes from storage,
then rebuild the search index and the backlinks index from that set;
storage and the journal are untouched. -/
def rebuild_indexes (now : DateTime) (st : ServiceState) :
    Except Str (RebuildResult × ServiceState) := do
  let notes ← loadAllNotes now st.disk
  .ok (⟨notes.length, true, true⟩,
    { st with docs := SearchIndex.rebuild notes, links := backlinksRebuild notes })

end NoteService

/-! ## Concrete scenarios used by the claims -/

/-- Clock fixed at 2024-06-15T12:00:00 (UTC in the claims). -/
def fixedClock : DateTime := ⟨2024, 6, 15, 12, 0, 0, 0⟩

/-- A service over empty storage and indexes. -/
def emptyState : NoteService.ServiceState := ⟨[], [], [], []⟩

/-- Create projects/x, then create a note at the folder path projects. -/
def c1Run : Except Str (Note × NoteService.ServiceState) := do
  let (_, st1) ← NoteService.create_note fixedClock (pstr "projects/x")
    (pstr "X") (pstr "child note") [] emptyState
  NoteService.create_note fixedClock (pstr "projects") (pstr "P")
    (pstr "folder note") [] st1

/-- Create projects/x, then create the index note of the folder. -/
def c1RunIndex : Except Str (Note × NoteService.ServiceState) := do
  let (_, st1) ← NoteService.create_note fixedClock (pstr "projects/x")
    (pstr "X") (pstr "child note") [] emptyState
  NoteService.create_note fixedClock (pstr "projects/index") (pstr "P")
    (pstr "index note") [] st1

/-- Create target and a source linking to it as [[target|Label]], then
move target to moved with backlink propagation. -/
def c4Run : Except Str (Option NoteService.UpdateResult × NoteService.ServiceState) := do
  let (_, st1) ← NoteService.create_note fixedClock (pstr "target")
    (pstr "Target") (pstr "Target body") [] emptyState
  let (_, st2) ← NoteService.create_note fixedClock (pstr "source")
    (pstr "Source") (pstr "See [[target|Label]] here.") [] st1
  NoteService.update_note fixedClock (pstr "target") none none none none none
    (some (pstr "moved")) true st2

/-- Storage holding the index note of projects next to two direct
children and one nested note. -/
def c7Disk : Except Str FilesystemStorage.Disk := do
  let d1 ← FilesystemStorage.save
    ⟨pstr "projects/index", pstr "I", [], [], fixedClock, fixedClock⟩ []
  let d2 ← FilesystemStorage.save
    ⟨pstr "projects/proj1", pstr "P1", [], [], fixedClock, fixedClock⟩ d1
  let d3 ← FilesystemStorage.save
    ⟨pstr "projects/proj2", pstr "P2", [], [], fixedClock, fixedClock⟩ d2
  FilesystemStorage.save
    ⟨pstr "projects/sub/proj3", pstr "P3", [], [], fixedClock, fixedClock⟩ d3

/-- A service state whose storage holds one linking note. -/
def c8State : NoteService.ServiceState :=
  ⟨[(pstr "a", to_markdown ⟨pstr "a", pstr "A", pstr "See [[b]]", [],
      fixedClock, fixedClock⟩)], [], [], []⟩

/-- The output of a first rebuild over that state. -/
def c8Pair : NoteService.RebuildResult × NoteService.ServiceState :=
  (NoteService.rebuild_indexes fixedClock c8State).toOption.getD
    (⟨0, false, false⟩, c8State)

/-- A concrete valid note exercising tags, wiki links and a body with
newlines and a microsecond timestamp. -/
def c10Note : Note :=
  ⟨pstr "projects/x", pstr "My Note", pstr "Hello [[other]]\nBody text.\n",
    [pstr "tag-a", pstr "b2"], ⟨2024, 6, 15, 12, 0, 0, 0⟩,
    ⟨2024, 6, 16, 8, 30, 5, 123456⟩⟩

end BotNotes

/-! ## Theorems -/

namespace BotNotes

namespace RWFileLock

/-- Helper: in a thread that already holds the lock (mode is not none),
any well-nested sequence of scopes restores the thread state and emits
no OS-level lock operation. -/
theorem run_reentrant (p : Prog) : ∀ s : TState, s.lock_mode ≠ Mode.modeNone →
    (run p s).1 = s ∧ (run p s).2.1 = [] := by
  induction p with
  | skip => intro s h; simp [run]
  | seq p q ihp ihq =>
    intro s h
    have hp := ihp s h
    rcases hr : run p s with ⟨s1, ops1, e1⟩
    rw [hr] at hp
    simp only at hp
    obtain ⟨rfl, rfl⟩ := hp
    cases e1 with
    | some e => simp [run, hr]
    | none =>
      have hq := ihq s1 h
      rcases hr2 : run q s1 with ⟨s2, ops2, e2⟩
      rw [hr2] at hq
      simp only at hq
      obtain ⟨rfl, rfl⟩ := hq
      simp [run, hr, hr2]
  | readScope p ih =>
    intro s h
    obtain ⟨m, c⟩ := s
    cases m with
    | modeNone => exact absurd rfl h
    | modeRead =>
      have hi := ih ⟨Mode.modeRead, c + 1⟩ (by simp)
      rcases hr : run p ⟨Mode.modeRead, c + 1⟩ with ⟨s1, ops, e⟩
      rw [hr] at hi
      simp only at hi
      obtain ⟨rfl, rfl⟩ := hi
      simp [run, hr]
    | modeWrite =>
      have hi := ih ⟨Mode.modeWrite, c + 1⟩ (by simp)
      rcases hr : run p ⟨Mode.modeWrite, c + 1⟩ with ⟨s1, ops, e⟩
      rw [hr] at hi
      simp only at hi
      obtain ⟨rfl, rfl⟩ := hi
      simp [run, hr]
  | writeScope p ih =>
    intro s h
    obtain ⟨m, c⟩ := s
    cases m with
    | modeNone => exact absurd rfl h
    | modeRead => simp [run]
    | modeWrite =>
      have hi := ih ⟨Mode.modeWrite, c + 1⟩ (by simp)
      rcases hr : run p ⟨Mode.modeWrite, c + 1⟩ with ⟨s1, ops, e⟩
      rw [hr] at hi
      simp only at hi
      obtain ⟨rfl, rfl⟩ := hi
      simp [run, hr]

/-- C2: acquiring the write lock in a thread that currently holds the
read lock raises the lock order violation immediately: no OS-level lock
operation is performed, the scope body is never entered, and the
per-thread mode and depth are unchanged. -/
theorem write_lock_in_read_raises (p : Prog) (s : TState)
    (h : s.lock_mode = Mode.modeRead) :
    run (.writeScope p) s = (s, [], some LockErr.lockOrder) := by
  obtain ⟨m, c⟩ := s
  simp only at h
  subst h
  simp [run]

/-- Witness for C2 at a concrete state: a thread one level deep in a
read lock sees the error from a nested write scope and keeps its state. -/
theorem write_lock_in_read_raises_witness :
    run (.writeScope .skip) ⟨Mode.modeRead, 1⟩ =
      (⟨Mode.modeRead, 1⟩, [], some LockErr.lockOrder) :=
  write_lock_in_read_raises .skip ⟨Mode.modeRead, 1⟩ rfl

/-- C3: only the outermost acquisition touches the OS-level lock.
Part 1: every well-nested group of scopes run while a lock is already
held performs no OS-level operation and restores the per-thread depth
and mode.  Parts 2 and 3: an outermost read (resp. write) scope emits
exactly one shared (resp. exclusive) acquisition when depth goes 0 to 1
and exactly one release when depth returns to 0 at scope exit.
Part 4: a read acquired inside an already-held write contributes no
OS-level operation; only the outermost write scope releases the lock. -/
theorem lock_outermost_only_touches_os :
    (∀ (p : Prog) (s : TState), s.lock_mode ≠ Mode.modeNone →
      (run p s).1 = s ∧ (run p s).2.1 = []) ∧
    (∀ p : Prog, run (.readScope p) ⟨Mode.modeNone, 0⟩ =
      (⟨Mode.modeNone, 0⟩, [OsOp.lockSh, OsOp.unlock],
        (run p ⟨Mode.modeRead, 1⟩).2.2)) ∧
    (∀ p : Prog, run (.writeScope p) ⟨Mode.modeNone, 0⟩ =
      (⟨Mode.modeNone, 0⟩, [OsOp.lockEx, OsOp.unlock],
        (run p ⟨Mode.modeWrite, 1⟩).2.2)) ∧
    (∀ p : Prog, run (.writeScope (.readScope p)) ⟨Mode.modeNone, 0⟩ =
      (⟨Mode.modeNone, 0⟩, [OsOp.lockEx, OsOp.unlock],
        (run p ⟨Mode.modeWrite, 2⟩).2.2)) := by
  refine ⟨run_reentrant, ?_, ?_, ?_⟩
  · intro p
    have hi := run_reentrant p ⟨Mode.modeRead, 1⟩ (by simp)
    rcases hr : run p ⟨Mode.modeRead, 1⟩ with ⟨s1, ops, e⟩
    rw [hr] at hi
    simp only at hi
    obtain ⟨rfl, rfl⟩ := hi
    simp [run, hr]
  · intro p
    have hi := run_reentrant p ⟨Mode.modeWrite, 1⟩ (by simp)
    rcases hr : run p ⟨Mode.modeWrite, 1⟩ with ⟨s1, ops, e⟩
    rw [hr] at hi
    simp only at hi
    obtain ⟨rfl, rfl⟩ := hi
    simp [run, hr]
  · intro p
    have hi := run_reentrant p ⟨Mode.modeWrite, 2⟩ (by simp)
    rcases hr : run p ⟨Mode.modeWrite, 2⟩ with ⟨s1, ops, e⟩
    rw [hr] at hi
    simp only at hi
    obtain ⟨rfl, rfl⟩ := hi
    simp [run, hr]

/-- Witness for C3 at concrete inputs: a read scope nested inside a held
write lock (depth 1) leaves the state unchanged and emits nothing, and an
outermost write scope containing a nested read emits exactly one
exclusive acquisition and one release. -/
theorem lock_outermost_only_touches_os_witness :
    ((run (.readScope .skip) ⟨Mode.modeWrite, 1⟩).1 = ⟨Mode.modeWrite, 1⟩ ∧
      (run (.readScope .skip) ⟨Mode.modeWrite, 1⟩).2.1 = []) ∧
    run (.writeScope (.readScope .skip)) ⟨Mode.modeNone, 0⟩ =
      (⟨Mode.modeNone, 0⟩, [OsOp.lockEx, OsOp.unlock],
        (run .skip ⟨Mode.modeWrite, 2⟩).2.2) :=
  ⟨lock_outermost_only_touches_os.1 (.readScope .skip) ⟨Mode.modeWrite, 1⟩
      (by decide),
    lock_outermost_only_touches_os.2.2.2 .skip⟩

end RWFileLock

end BotNotes

namespace BotNotes

/-- C1: contrary to the claim, this code rejects no folder-note
overlap: after create("projects/x", ...), create("projects", ...)
succeeds and stores the note (no ConflictError is raised anywhere on
the save path), and create("projects/index", ...) also succeeds.  The
repository tests demand the rejection; the code omits it. -/
theorem create_note_accepts_folder_overlap :
    (c1Run.toOption.map fun p => FilesystemStorage.list_all p.2.disk) =
      some [pstr "projects", pstr "projects/x"] ∧
    (c1RunIndex.toOption.map fun p => FilesystemStorage.list_all p.2.disk) =
      some [pstr "projects/index", pstr "projects/x"] := by
  constructor <;> rfl

/-- C7: contrary to the claim, list_by_prefix of this code returns the
folder index note inside the notes list and returns a result shape
with no index-note information at all (the FolderListing carries
exactly the keys notes and subfolders); only the one-level subfolder
collection behaves as claimed. -/
theorem list_by_folder_returns_index_note :
    (c7Disk.toOption.map fun d => FilesystemStorage.listInFolder d (pstr "projects")) =
      some ⟨[pstr "projects/index", pstr "projects/proj1", pstr "projects/proj2"],
        [pstr "projects/sub"]⟩ := by
  rfl

/-- C4: moving target to moved with update_backlinks rewrites the
stored content of the linking note source to contain [[moved|Label]]
with the display text preserved, reports source in the
backlinks_updated list, and afterwards the backlink index lists source
under moved and nothing under target. -/
theorem move_rewrites_inbound_links :
    (c4Run.toOption.bind fun p => p.1.map fun r => r.backlinks_updated) =
      some [pstr "source"] ∧
    (c4Run.toOption.map fun p =>
      (FilesystemStorage.getFile p.2.disk (pstr "source")).map fun text =>
        containsSub (pstr "[[moved|Label]]") text) = some (some true) ∧
    (c4Run.toOption.map fun p =>
      (NoteService.service_get_backlinks (pstr "moved") p.2).map fun b =>
        (b.source_path, b.line_numbers)) = some [(pstr "source", [1])] ∧
    (c4Run.toOption.map fun p =>
      NoteService.service_get_backlinks (pstr "target") p.2) = some [] := by
  refine ⟨rfl, rfl, rfl, rfl⟩

end BotNotes

namespace BotNotes

/-- Unfolding of rebuild_indexes into an explicit case split over the
note-loading loop. -/
theorem rebuild_indexes_eq (now : DateTime) (st : NoteService.ServiceState) :
    NoteService.rebuild_indexes now st =
      match NoteService.loadAllNotes now st.disk with
      | .error e => .error e
      | .ok notes =>
        .ok (⟨notes.length, true, true⟩,
          { st with
            docs := SearchIndex.rebuild notes
            links := backlinksRebuild notes }) := by
  unfold NoteService.rebuild_indexes
  cases NoteService.loadAllNotes now st.disk <;> rfl

/-- C8: rebuild_indexes is idempotent: whatever storage, search and
backlink state the service is in, a second rebuild (against the same
clock, which only matters for files with unparsable timestamps)
succeeds and reproduces exactly the result and state of the first,
because storage and the journal are untouched by a rebuild and both
indexes are rebuilt from scratch as pure functions of the loaded
notes. -/
theorem rebuild_indexes_idempotent (now : DateTime)
    (st st1 : NoteService.ServiceState) (r : NoteService.RebuildResult)
    (h : NoteService.rebuild_indexes now st = .ok (r, st1)) :
    NoteService.rebuild_indexes now st1 = .ok (r, st1) := by
  rw [rebuild_indexes_eq] at h
  cases hl : NoteService.loadAllNotes now st.disk with
  | error e => rw [hl] at h; exact Except.noConfusion h
  | ok notes =>
    rw [hl] at h
    have h2 := Except.ok.inj h
    rw [Prod.mk.injEq] at h2
    obtain ⟨rfl, rfl⟩ := h2
    rw [rebuild_indexes_eq]
    rw [show ({ st with
        docs := SearchIndex.rebuild notes
        links := backlinksRebuild notes } : NoteService.ServiceState).disk
      = st.disk from rfl]
    rw [hl]

/-- Witness for C8: a second rebuild over the one-note state
reproduces the first rebuild output. -/
theorem rebuild_indexes_idempotent_witness :
    NoteService.rebuild_indexes fixedClock c8Pair.2 = .ok (c8Pair.1, c8Pair.2) :=
  rebuild_indexes_idempotent fixedClock c8State c8Pair.2 c8Pair.1 (by rfl)

end BotNotes


namespace BotNotes

namespace BacklinksIndex

/-- Unfold entryLines over a cons cell. -/
theorem entryLines_cons (t0 : Str) (m : SrcMap) (rest : LinksMap) (t s : Str) :
    entryLines ((t0, m) :: rest) t s =
      if t0 = t then (m.find? fun q => decide (q.1 = s)).map (·.2)
      else entryLines rest t s := by
  by_cases h : t0 = t <;> simp [entryLines, List.find?, h]

/-- Unfold removeSourceFrom over a cons cell. -/
theorem removeSourceFrom_cons (src t0 : Str) (m : SrcMap) (rest : LinksMap) :
    removeSourceFrom src ((t0, m) :: rest) =
      if (m.any fun q => decide (q.1 = src)) then
        (if (m.filter fun q => decide (¬ q.1 = src)).isEmpty then
          removeSourceFrom src rest
        else (t0, m.filter fun q => decide (¬ q.1 = src)) :: removeSourceFrom src rest)
      else (t0, m) :: removeSourceFrom src rest := rfl

/-- Find over a cons cell whose key matches. -/
theorem find?_pair_cons_eq {β : Type} (s0 src : Str) (v : β)
    (rest : List (Str × β)) (h : s0 = src) :
    (((s0, v) :: rest).find? fun q => decide (q.1 = src)) = some (s0, v) := by
  simp [List.find?, h]

/-- Find over a cons cell whose key differs. -/
theorem find?_pair_cons_ne {β : Type} (s0 src : Str) (v : β)
    (rest : List (Str × β)) (h : ¬ s0 = src) :
    (((s0, v) :: rest).find? fun q => decide (q.1 = src)) =
      rest.find? fun q => decide (q.1 = src) := by
  simp [List.find?, h]

/-- After the removal loop the source has no entry under any target. -/
theorem entryLines_removeSourceFrom (src t : Str) (links : LinksMap) :
    entryLines (removeSourceFrom src links) t src = none := by
  induction links with
  | nil => rfl
  | cons p rest ih =>
    obtain ⟨t0, m⟩ := p
    rw [removeSourceFrom_cons]
    by_cases hany : (m.any fun q => decide (q.1 = src)) = true
    · rw [if_pos hany]
      by_cases hemp : ((m.filter fun q => decide (¬ q.1 = src)).isEmpty) = true
      · rw [if_pos hemp]; exact ih
      · rw [if_neg hemp, entryLines_cons]
        by_cases ht : t0 = t
        · rw [if_pos ht]
          have hin : ((m.filter fun q => decide (¬ q.1 = src)).find?
              fun q => decide (q.1 = src)) = none := by
            rw [List.find?_eq_none]
            intro x hx
            have hx2 := (List.mem_filter.mp hx).2
            simp only [decide_eq_true_eq] at hx2 ⊢
            exact hx2
          rw [hin]; rfl
        · rw [if_neg ht]; exact ih
    · rw [if_neg hany, entryLines_cons]
      rw [Bool.not_eq_true] at hany
      by_cases ht : t0 = t
      · rw [if_pos ht]
        have hin : (m.find? fun q => decide (q.1 = src)) = none := by
          rw [List.find?_eq_none]
          intro x hx
          exact List.any_eq_false.mp hany x hx
        rw [hin]; rfl
      · rw [if_neg ht]; exact ih

/-- Effect of addSrcLine on the lookup of the written source. -/
theorem srcLines_addSrcLine (src : Str) (n : Nat) (m : SrcMap) :
    ((addSrcLine src n m).find? fun q => decide (q.1 = src)).map (·.2) =
      some (addLineTo n
        (((m.find? fun q => decide (q.1 = src)).map (·.2)).getD [])) := by
  induction m with
  | nil =>
    rw [show addSrcLine src n [] = [(src, [n])] from rfl]
    rw [find?_pair_cons_eq _ _ _ _ rfl]
    rfl
  | cons q rest ih =>
    obtain ⟨s0, ls⟩ := q
    by_cases hs : s0 = src
    · subst hs
      have hany : (((s0, ls) :: rest).any fun q => decide (q.1 = s0)) = true := by
        simp [List.any_cons]
      simp only [addSrcLine]
      rw [if_pos hany, List.map_cons]
      have hh1 : (if (s0, ls).1 = s0 then ((s0, ls).1, addLineTo n (s0, ls).2)
          else (s0, ls)) = (s0, addLineTo n ls) := by simp
      rw [hh1]
      rw [find?_pair_cons_eq _ _ _ _ rfl, find?_pair_cons_eq _ _ _ _ rfl]
      rfl
    · by_cases hany : (rest.any fun q => decide (q.1 = src)) = true
      · have hall : (((s0, ls) :: rest).any fun q => decide (q.1 = src)) = true := by
          simp [List.any_cons, hany]
        simp only [addSrcLine]
        rw [if_pos hall, List.map_cons]
        have hh2 : (if (s0, ls).1 = src then ((s0, ls).1, addLineTo n (s0, ls).2)
            else (s0, ls)) = (s0, ls) := by simp [hs]
        rw [hh2]
        rw [find?_pair_cons_ne _ _ _ _ hs, find?_pair_cons_ne _ _ _ _ hs]
        simp only [addSrcLine] at ih
        rw [if_pos hany] at ih
        exact ih
      · rw [Bool.not_eq_true] at hany
        have hall : (((s0, ls) :: rest).any fun q => decide (q.1 = src)) = false := by
          simp [List.any_cons, hs, hany]
        simp only [addSrcLine]
        rw [hall]
        simp only [Bool.false_eq_true, if_false]
        rw [List.cons_append]
        rw [find?_pair_cons_ne _ _ _ _ hs, find?_pair_cons_ne _ _ _ _ hs]
        simp only [addSrcLine] at ih
        rw [hany] at ih
        simp only [Bool.false_eq_true, if_false] at ih
        exact ih

/-- A value-only update of the entries of one target key does not
change lookups under a different target. -/
theorem entryLines_map_update (tgt t src : Str) (hne : ¬ tgt = t)
    (g : SrcMap → SrcMap) (acc : LinksMap) :
    entryLines (acc.map fun p => if p.1 = tgt then (p.1, g p.2) else p) t src =
      entryLines acc t src := by
  induction acc with
  | nil => rfl
  | cons p rest ih =>
    obtain ⟨t0, m⟩ := p
    rw [List.map_cons]
    by_cases h0 : t0 = tgt
    · subst h0
      have hh3 : (if (t0, m).1 = t0 then ((t0, m).1, g (t0, m).2) else (t0, m))
          = (t0, g m) := by simp
      rw [hh3]
      rw [entryLines_cons, entryLines_cons, if_neg hne, if_neg hne]
      exact ih
    · have hh4 : (if (t0, m).1 = tgt then ((t0, m).1, g (t0, m).2) else (t0, m))
          = (t0, m) := by simp [h0]
      rw [hh4]
      rw [entryLines_cons, entryLines_cons]
      by_cases ht : t0 = t
      · rw [if_pos ht, if_pos ht]
      · rw [if_neg ht, if_neg ht]
        exact ih

/-- Effect of addLink on the lookup of the written (target, source)
pair: the line number is recorded once on top of whatever was there. -/
theorem entryLines_addLink_same (src t : Str) (n : Nat) (acc : LinksMap) :
    entryLines (addLink src t n acc) t src =
      some (addLineTo n ((entryLines acc t src).getD [])) := by
  induction acc with
  | nil =>
    rw [show addLink src t n [] = [(t, [(src, [n])])] from rfl]
    rw [entryLines_cons, if_pos rfl, find?_pair_cons_eq _ _ _ _ rfl]
    rfl
  | cons p rest ih =>
    obtain ⟨t0, m⟩ := p
    simp only [addLink]
    by_cases ht : t0 = t
    · subst ht
      have hany : (((t0, m) :: rest).any fun p => decide (p.1 = t0)) = true := by
        simp [List.any_cons]
      rw [if_pos hany, List.map_cons]
      have hh : (if (t0, m).1 = t0 then ((t0, m).1, addSrcLine src n (t0, m).2)
          else (t0, m)) = (t0, addSrcLine src n m) := by simp
      rw [hh]
      rw [entryLines_cons, if_pos rfl, entryLines_cons, if_pos rfl]
      exact srcLines_addSrcLine src n m
    · by_cases hany : (rest.any fun p => decide (p.1 = t)) = true
      · have hall : (((t0, m) :: rest).any fun p => decide (p.1 = t)) = true := by
          simp [List.any_cons, hany]
        rw [if_pos hall, List.map_cons]
        have hh : (if (t0, m).1 = t then ((t0, m).1, addSrcLine src n (t0, m).2)
            else (t0, m)) = (t0, m) := by simp [ht]
        rw [hh]
        rw [entryLines_cons, if_neg ht, entryLines_cons, if_neg ht]
        simp only [addLink] at ih
        rw [if_pos hany] at ih
        exact ih
      · rw [Bool.not_eq_true] at hany
        have hall : (((t0, m) :: rest).any fun p => decide (p.1 = t)) = false := by
          simp [List.any_cons, ht, hany]
        rw [hall]
        simp only [Bool.false_eq_true, if_false]
        rw [List.cons_append]
        rw [entryLines_cons, if_neg ht, entryLines_cons, if_neg ht]
        simp only [addLink] at ih
        rw [hany] at ih
        simp only [Bool.false_eq_true, if_false] at ih
        exact ih

/-- addLink under one target does not change lookups under another. -/
theorem entryLines_addLink_other (src t tgt : Str) (hne : ¬ tgt = t) (n : Nat)
    (acc : LinksMap) :
    entryLines (addLink src tgt n acc) t src = entryLines acc t src := by
  induction acc with
  | nil =>
    rw [show addLink src tgt n [] = [(tgt, [(src, [n])])] from rfl]
    rw [entryLines_cons, if_neg hne]
  | cons p rest ih =>
    obtain ⟨t0, m⟩ := p
    simp only [addLink]
    by_cases h0 : t0 = tgt
    · subst h0
      have hany : (((t0, m) :: rest).any fun p => decide (p.1 = t0)) = true := by
        simp [List.any_cons]
      rw [if_pos hany, List.map_cons]
      have hh : (if (t0, m).1 = t0 then ((t0, m).1, addSrcLine src n (t0, m).2)
          else (t0, m)) = (t0, addSrcLine src n m) := by simp
      rw [hh]
      rw [entryLines_cons, if_neg hne, entryLines_cons, if_neg hne]
      exact entryLines_map_update t0 t src hne _ rest
    · by_cases hany : (rest.any fun p => decide (p.1 = tgt)) = true
      · have hall : (((t0, m) :: rest).any fun p => decide (p.1 = tgt)) = true := by
          simp [List.any_cons, hany]
        rw [if_pos hall, List.map_cons]
        have hh : (if (t0, m).1 = tgt then ((t0, m).1, addSrcLine src n (t0, m).2)
            else (t0, m)) = (t0, m) := by simp [h0]
        rw [hh]
        rw [entryLines_cons, entryLines_cons]
        by_cases ht : t0 = t
        · rw [if_pos ht, if_pos ht]
        · rw [if_neg ht, if_neg ht]
          simp only [addLink] at ih
          rw [if_pos hany] at ih
          exact ih
      · rw [Bool.not_eq_true] at hany
        have hall : (((t0, m) :: rest).any fun p => decide (p.1 = tgt)) = false := by
          simp [List.any_cons, h0, hany]
        rw [hall]
        simp only [Bool.false_eq_true, if_false]
        rw [List.cons_append]
        rw [entryLines_cons, entryLines_cons]
        by_cases ht : t0 = t
        · rw [if_pos ht, if_pos ht]
        · rw [if_neg ht, if_neg ht]
          simp only [addLink] at ih
          rw [hany] at ih
          simp only [Bool.false_eq_true, if_false] at ih
          exact ih

/-- linesOf over a link that points at the target. -/
theorem linesOf_cons_pos {t : Str} {l : WikiLink} (L : List WikiLink)
    (hl : l.target_path = t) :
    linesOf t (l :: L) = l.line_number :: linesOf t L := by
  simp [linesOf, hl]

/-- linesOf over a link that points elsewhere. -/
theorem linesOf_cons_neg {t : Str} {l : WikiLink} (L : List WikiLink)
    (hl : ¬ l.target_path = t) :
    linesOf t (l :: L) = linesOf t L := by
  simp [linesOf, hl]

/-- foldLines consumes one line number per step. -/
theorem foldLines_cons (o : Option (List Nat)) (n : Nat) (ns : List Nat) :
    foldLines o (n :: ns) = foldLines (some (addLineTo n (o.getD []))) ns := rfl

/-- The insertion loop records under the written pair exactly the line
numbers of the links to that target, in order. -/
theorem entryLines_foldl_addLink (src t : Str) (L : List WikiLink) :
    ∀ acc : LinksMap,
      entryLines
        (L.foldl (fun a l => addLink src l.target_path l.line_number a) acc)
        t src =
      foldLines (entryLines acc t src) (linesOf t L) := by
  induction L with
  | nil => intro acc; rfl
  | cons l L ih =>
    intro acc
    rw [List.foldl_cons]
    by_cases hl : l.target_path = t
    · rw [linesOf_cons_pos L hl, foldLines_cons, ih, hl, entryLines_addLink_same]
    · rw [linesOf_cons_neg L hl, ih, entryLines_addLink_other src t _ hl]

/-- Membership in the result of addLineTo. -/
theorem addLineTo_mem (k n : Nat) (lns : List Nat) :
    k ∈ addLineTo n lns ↔ (k ∈ lns ∨ k = n) := by
  by_cases hm : n ∈ lns
  · rw [addLineTo, if_pos hm]
    constructor
    · exact Or.inl
    · rintro (h | rfl)
      · exact h
      · exact hm
  · rw [addLineTo, if_neg hm]
    simp [List.mem_append]

/-- addLineTo preserves distinctness. -/
theorem addLineTo_nodup {n : Nat} {lns : List Nat} (h : lns.Nodup) :
    (addLineTo n lns).Nodup := by
  by_cases hm : n ∈ lns
  · rw [addLineTo, if_pos hm]; exact h
  · rw [addLineTo, if_neg hm]
    rw [List.nodup_append]
    exact ⟨h, List.nodup_singleton n, by
      intro a ha hb
      rw [List.mem_singleton] at hb
      exact hm (hb ▸ ha)⟩

/-- Accumulating line numbers keeps the list duplicate free and its
membership is the union of the start and the consumed numbers. -/
theorem foldLines_some_spec (ns : List Nat) :
    ∀ lns : List Nat, lns.Nodup →
      ∃ lns2, foldLines (some lns) ns = some lns2 ∧ lns2.Nodup ∧
        ∀ k, (k ∈ lns2 ↔ (k ∈ lns ∨ k ∈ ns)) := by
  induction ns with
  | nil =>
    intro lns h
    exact ⟨lns, rfl, h, by simp⟩
  | cons n ns ih =>
    intro lns h
    rw [foldLines_cons]
    simp only [Option.getD_some]
    obtain ⟨lns2, h1, h2, h3⟩ := ih (addLineTo n lns) (addLineTo_nodup h)
    refine ⟨lns2, h1, h2, fun k => ?_⟩
    rw [h3 k, addLineTo_mem, List.mem_cons]
    tauto

/-- Membership in linesOf. -/
theorem mem_linesOf (k : Nat) (t : Str) (L : List WikiLink) :
    k ∈ linesOf t L ↔ ∃ l ∈ L, l.target_path = t ∧ l.line_number = k := by
  simp only [linesOf, List.mem_map, List.mem_filter, decide_eq_true_eq]
  constructor
  · rintro ⟨l, ⟨hl, hlt⟩, hk⟩
    exact ⟨l, hl, hlt, hk⟩
  · rintro ⟨l, hl, hlt, hk⟩
    exact ⟨l, ⟨hl, hlt⟩, hk⟩

/-- C6: update_note_links is a full replace for the source: afterwards
an entry (target, source) exists exactly when some supplied link points
at that target, its line-number list is duplicate free, and its members
are exactly the line numbers of the supplied links to that target —
independent of whatever the index previously recorded for the source. -/
theorem update_note_links_full_replace (links : LinksMap) (src : Str)
    (L : List WikiLink) (t : Str) :
    ((entryLines (update_note_links src L links) t src).isSome ↔
      ∃ l ∈ L, l.target_path = t) ∧
    ∀ lns, entryLines (update_note_links src L links) t src = some lns →
      lns.Nodup ∧ ∀ k, (k ∈ lns ↔ ∃ l ∈ L, l.target_path = t ∧ l.line_number = k) := by
  have hfold := entryLines_foldl_addLink src t L (removeSourceFrom src links)
  rw [entryLines_removeSourceFrom] at hfold
  rw [show update_note_links src L links =
    L.foldl (fun a l => addLink src l.target_path l.line_number a)
      (removeSourceFrom src links) from rfl]
  rw [hfold]
  cases hns : linesOf t L with
  | nil =>
    have hne : ∀ l ∈ L, ¬ l.target_path = t := by
      intro l hl hlt
      have : l.line_number ∈ linesOf t L :=
        (mem_linesOf l.line_number t L).mpr ⟨l, hl, hlt, rfl⟩
      rw [hns] at this
      exact absurd this (List.not_mem_nil _)
    constructor
    · rw [show foldLines none [] = none from rfl]
      simp only [Option.isSome_none, Bool.false_eq_true, false_iff]
      rintro ⟨l, hl, hlt⟩
      exact hne l hl hlt
    · intro lns hlns
      rw [show foldLines none [] = none from rfl] at hlns
      exact Option.noConfusion hlns
  | cons n ns =>
    rw [foldLines_cons]
    simp only [Option.getD_none]
    obtain ⟨lns2, h1, h2, h3⟩ :=
      foldLines_some_spec ns (addLineTo n []) (addLineTo_nodup List.nodup_nil)
    rw [h1]
    constructor
    · simp only [Option.isSome_some, true_iff]
      have : n ∈ linesOf t L := by rw [hns]; exact List.mem_cons_self n ns
      obtain ⟨l, hl, hlt, _⟩ := (mem_linesOf n t L).mp this
      exact ⟨l, hl, hlt⟩
    · intro lns hlns
      have hlns2 : lns = lns2 := (Option.some.inj hlns).symm
      subst hlns2
      refine ⟨h2, fun k => ?_⟩
      rw [← mem_linesOf, hns]
      rw [h3 k, addLineTo_mem, List.mem_cons]
      simp only [List.not_mem_nil, false_or]

/-- Witness for C6 at a concrete call: two identical links to target b
on line 1 from source a over an empty index produce exactly the single
deduplicated entry [1]. -/
theorem update_note_links_full_replace_witness :
    ((entryLines
      (update_note_links (pstr "a")
        [⟨pstr "b", none, 1⟩, ⟨pstr "b", none, 1⟩] [])
      (pstr "b") (pstr "a")).isSome = true) ∧
    [1].Nodup ∧ ∀ k, (k ∈ ([1] : List Nat) ↔
      ∃ l ∈ [(⟨pstr "b", none, 1⟩ : WikiLink), ⟨pstr "b", none, 1⟩],
        l.target_path = pstr "b" ∧ l.line_number = k) :=
  ⟨by
    rw [(update_note_links_full_replace [] (pstr "a")
      [⟨pstr "b", none, 1⟩, ⟨pstr "b", none, 1⟩] (pstr "b")).1]
    exact ⟨⟨pstr "b", none, 1⟩, by simp, rfl⟩,
   (update_note_links_full_replace [] (pstr "a")
      [⟨pstr "b", none, 1⟩, ⟨pstr "b", none, 1⟩] (pstr "b")).2 [1] (by rfl)⟩

end BacklinksIndex

end BotNotes

namespace BotNotes

/-- Reconstruction: a successful closePipe consumed the closing
brackets of the matched text. -/
theorem closePipe_reconstruct (g1 g2 s m a : Str) (b : Option Str) (rem : Str)
    (h : closePipe g1 g2 s = some (m, a, b, rem)) :
    m ++ rem = '[' :: '[' :: (g1 ++ '|' :: g2 ++ s) := by
  rw [closePipe.eq_def] at h
  split at h
  · obtain ⟨rfl, rfl, rfl, rfl⟩ :=
      Prod.mk.injEq .. ▸ Option.some.inj h
    simp
  · exact Option.noConfusion h

/-- Reconstruction: a successful closeLink consumed exactly the rest of
the matched text after group 1. -/
theorem closeLink_reconstruct (g1 s m a : Str) (b : Option Str) (rem : Str)
    (h : closeLink g1 s = some (m, a, b, rem)) :
    m ++ rem = '[' :: '[' :: (g1 ++ s) := by
  rw [closeLink.eq_def] at h
  split at h
  · obtain ⟨rfl, rfl, rfl, rfl⟩ :=
      Prod.mk.injEq .. ▸ Option.some.inj h
    simp
  · rename_i rest2
    split at h
    · exact Option.noConfusion h
    · have h2 := closePipe_reconstruct _ _ _ _ _ _ _ h
      rw [h2]
      simp [List.takeWhile_append_dropWhile]
  · exact Option.noConfusion h

/-- Reconstruction: a successful match at the head of the string
consumed a prefix: matched text plus rest is the input. -/
theorem matchLinkAt_reconstruct (s m a : Str) (b : Option Str) (rem : Str)
    (h : matchLinkAt s = some (m, a, b, rem)) :
    m ++ rem = s := by
  rw [matchLinkAt.eq_def] at h
  split at h
  · rename_i rest
    rw [afterBrackets] at h
    split at h
    · exact Option.noConfusion h
    · have h2 := closeLink_reconstruct _ _ _ _ _ _ h
      rw [h2]
      rw [List.takeWhile_append_dropWhile]
  · exact Option.noConfusion h

/-- Unfold lineLinks over a successful head match. -/
theorem lineLinks_cons_some (f : Nat) (c : Char) (rest m g1 : Str)
    (g2 : Option Str) (rem : Str)
    (h : matchLinkAt (c :: rest) = some (m, g1, g2, rem)) :
    lineLinks (f + 1) (c :: rest) = (g1, g2) :: lineLinks f rem := by
  simp only [lineLinks, h]

/-- Unfold lineLinks when no match starts at the head. -/
theorem lineLinks_cons_none (f : Nat) (c : Char) (rest : Str)
    (h : matchLinkAt (c :: rest) = none) :
    lineLinks (f + 1) (c :: rest) = lineLinks f rest := by
  simp only [lineLinks, h]

/-- Unfold subLinks over a successful head match. -/
theorem subLinks_cons_some (oldPath newPath : Str) (f : Nat) (c : Char)
    (rest m g1 : Str) (g2 : Option Str) (rem : Str)
    (h : matchLinkAt (c :: rest) = some (m, g1, g2, rem)) :
    subLinks oldPath newPath (f + 1) (c :: rest) =
      (if pyStrip g1 = oldPath then mkReplacement newPath g2 else m)
        ++ subLinks oldPath newPath f rem := by
  simp only [subLinks, h]

/-- Unfold subLinks when no match starts at the head. -/
theorem subLinks_cons_none (oldPath newPath : Str) (f : Nat) (c : Char)
    (rest : Str) (h : matchLinkAt (c :: rest) = none) :
    subLinks oldPath newPath (f + 1) (c :: rest) =
      c :: subLinks oldPath newPath f rest := by
  simp only [subLinks, h]

/-- When no scanned wiki link has the old path as its trimmed target,
the substitution pass returns the content unchanged, whatever the old
path occurs in outside of link targets. -/
theorem subLinks_unchanged (oldPath newPath : Str) : ∀ (f : Nat) (s : Str),
    (∀ pr ∈ lineLinks f s, ¬ pyStrip pr.1 = oldPath) →
      subLinks oldPath newPath f s = s := by
  intro f
  induction f with
  | zero => intro s h; cases s <;> rfl
  | succ f ih =>
    intro s h
    cases s with
    | nil => rfl
    | cons c rest =>
      cases hm : matchLinkAt (c :: rest) with
      | none =>
        rw [subLinks_cons_none _ _ _ _ _ hm]
        rw [ih rest fun pr hpr => h pr (by
          rw [lineLinks_cons_none _ _ _ hm]; exact hpr)]
      | some tup =>
        obtain ⟨m, g1, g2, rem⟩ := tup
        have hg : ¬ pyStrip g1 = oldPath :=
          h (g1, g2) (by rw [lineLinks_cons_some _ _ _ _ _ _ _ hm]; simp)
        rw [subLinks_cons_some _ _ _ _ _ _ _ _ _ hm, if_neg hg]
        rw [ih rem fun pr hpr => h pr (by
          rw [lineLinks_cons_some _ _ _ _ _ _ _ hm]; simp [hpr])]
        exact matchLinkAt_reconstruct _ _ _ _ _ hm

end BotNotes

namespace BotNotes

/-- Splitting a run: takeWhile and dropWhile at the first failing
character. -/
theorem takeWhile_all_append (p : Char → Bool) (l : Str) (x : Char) (r : Str)
    (hl : ∀ c ∈ l, p c = true) (hx : p x = false) :
    (l ++ x :: r).takeWhile p = l ∧ (l ++ x :: r).dropWhile p = x :: r := by
  induction l with
  | nil => simp [List.takeWhile_cons, List.dropWhile_cons, hx]
  | cons y l ih =>
    have hy : p y = true := hl y (by simp)
    have ih2 := ih fun c hc => hl c (by simp [hc])
    simp [List.takeWhile_cons, List.dropWhile_cons, hy, ih2.1, ih2.2]

/-- The pattern matches a whole well-formed pipe link, capturing the
target and the display text exactly. -/
theorem matchLinkAt_token (oldPath disp : Str) (ho : oldPath ≠ [])
    (hoc : ∀ c ∈ oldPath, isTargetChar c = true) (hd : disp ≠ [])
    (hdc : ∀ c ∈ disp, isDisplayChar c = true) :
    matchLinkAt ('[' :: '[' :: (oldPath ++ '|' :: disp ++ [']', ']'])) =
      some ('[' :: '[' :: (oldPath ++ '|' :: disp ++ [']', ']']),
        oldPath, some disp, []) := by
  have h1 := takeWhile_all_append isTargetChar oldPath '|' (disp ++ [']', ']'])
    hoc (by decide)
  have h2 := takeWhile_all_append isDisplayChar disp ']' [']'] hdc (by decide)
  have hoE : oldPath.isEmpty = false := by
    cases oldPath with
    | nil => exact absurd rfl ho
    | cons a l => rfl
  have hdE : disp.isEmpty = false := by
    cases disp with
    | nil => exact absurd rfl hd
    | cons a l => rfl
  rw [show matchLinkAt ('[' :: '[' :: (oldPath ++ '|' :: disp ++ [']', ']'])) =
    afterBrackets (oldPath ++ '|' :: disp ++ [']', ']']) from rfl]
  rw [afterBrackets]
  simp only [List.append_assoc, List.cons_append]
  rw [h1.1, h1.2, hoE]
  simp only [Bool.false_eq_true, if_false]
  rw [show closeLink oldPath ('|' :: (disp ++ [']', ']'])) =
    (if ((disp ++ [']', ']']).takeWhile isDisplayChar).isEmpty then none
     else closePipe oldPath ((disp ++ [']', ']']).takeWhile isDisplayChar)
       ((disp ++ [']', ']']).dropWhile isDisplayChar)) from rfl]
  rw [h2.1, h2.2, hdE]
  simp only [Bool.false_eq_true, if_false]
  rw [show closePipe oldPath disp [']', ']'] =
    some ('[' :: '[' :: (oldPath ++ '|' :: disp ++ [']', ']']),
      oldPath, some disp, []) from rfl]
  simp [List.append_assoc, List.cons_append]

/-- Fuel-exhausted and empty cases of subLinks agree on nil. -/
theorem subLinks_nil (oldPath newPath : Str) (f : Nat) :
    subLinks oldPath newPath f [] = [] := by
  cases f <;> rfl

/-- C5: the move rewrite replaces a wiki link only on an exact (trimmed)
target match.  First part: if no scanned link target in the content
strips to the old path — in particular when the old path occurs only as
a proper substring of longer targets or in plain text — the content is
returned unchanged.  Second part: a link whose target is exactly the
old path is rewritten to the new path with its display text preserved
verbatim.  Third part: the concrete behaviour on a mixed content, where
only [[a|L]] changes while [[ab]], [[xa]] and a bare a survive. -/
theorem replace_link_target_exact_match :
    (∀ content oldPath newPath : Str,
      (∀ pr ∈ lineLinks content.length content, ¬ pyStrip pr.1 = oldPath) →
        replace_link_target content oldPath newPath = content) ∧
    (∀ oldPath newPath disp : Str, oldPath ≠ [] →
      (∀ c ∈ oldPath, isTargetChar c = true) → pyStrip oldPath = oldPath →
      disp ≠ [] → (∀ c ∈ disp, isDisplayChar c = true) →
      replace_link_target ('[' :: '[' :: (oldPath ++ '|' :: disp ++ [']', ']']))
        oldPath newPath =
        '[' :: '[' :: (newPath ++ '|' :: disp ++ [']', ']'])) ∧
    replace_link_target (pstr "[[a|L]] [[ab]] a [[xa]]") (pstr "a") (pstr "z") =
      pstr "[[z|L]] [[ab]] a [[xa]]" := by
  refine ⟨?_, ?_, by rfl⟩
  · intro content oldPath newPath h
    exact subLinks_unchanged oldPath newPath content.length content h
  · intro oldPath newPath disp ho hoc hstrip hd hdc
    rw [replace_link_target]
    rw [show ('[' :: '[' :: (oldPath ++ '|' :: disp ++ [']', ']'])).length =
      ('[' :: (oldPath ++ '|' :: disp ++ [']', ']'])).length + 1 from rfl]
    rw [subLinks_cons_some _ _ _ _ _ _ _ _ _
      (matchLinkAt_token oldPath disp ho hoc hd hdc)]
    rw [if_pos hstrip, subLinks_nil, List.append_nil]
    rfl

/-- Witness for C5 at concrete inputs: content whose only links target
ab (a longer path) with a bare a in plain text is unchanged, and an
exact-target pipe link is rewritten with the display text kept. -/
theorem replace_link_target_exact_match_witness :
    replace_link_target (pstr "[[ab]] and a") (pstr "a") (pstr "z") =
      pstr "[[ab]] and a" ∧
    replace_link_target ('[' :: '[' :: (pstr "a" ++ '|' :: pstr "L" ++ [']', ']']))
      (pstr "a") (pstr "z") =
      '[' :: '[' :: (pstr "z" ++ '|' :: pstr "L" ++ [']', ']']) :=
  ⟨replace_link_target_exact_match.1 (pstr "[[ab]] and a") (pstr "a") (pstr "z")
      (by decide),
    replace_link_target_exact_match.2.1 (pstr "a") (pstr "z") (pstr "L")
      (by decide) (by decide) (by decide) (by decide) (by decide)⟩

end BotNotes

namespace BotNotes

/-- ppScan returns an empty output on empty input at any fuel. -/
theorem ppScan_nil (now : DateTime) (f : Nat) : ppScan now f [] = .ok [] := by
  cases f <;> rfl

/-- One scan step over a successful now-token match whose arithmetic
and tail both succeed. -/
theorem ppScan_now_step (now : DateTime) (f : Nat) (c : Char) (rest : Str)
    (ar : Option (Bool × Nat × Char)) (rem : Str)
    (hm : matchNowTok (c :: rest) = some (ar, rem)) (base : DateTime)
    (hb : applyArith now ar = .ok base) (tail : Str)
    (ht : ppScan now f rem = .ok tail) :
    ppScan now (f + 1) (c :: rest) = .ok (strftimeZ base ++ tail) := by
  simp only [ppScan, hm, hb, ht]
  rfl

/-- C9 counterexample: the recognition of now is not word-boundary
anchored, so the plain word snow — query text that is not one of the
claimed token forms — is rewritten rather than left unchanged. -/
theorem date_math_rewrites_inside_words :
    preprocessDateMath fixedClock (pstr "snow") ≠ .ok (pstr "snow") ∧
    preprocessDateMath fixedClock (pstr "snow") =
      .ok (pstr "s2024-06-15T12:00:00Z") := by
  constructor
  · intro h
    have h2 : pstr "s2024-06-15T12:00:00Z" = pstr "snow" := by
      have h1 : preprocessDateMath fixedClock (pstr "snow") =
        .ok (pstr "s2024-06-15T12:00:00Z") := by rfl
      exact Except.ok.inj (h1 ▸ h)
    exact absurd h2 (by decide)
  · rfl

/-- C9 (amended): every occurrence matching the date-math pattern is
rewritten to an absolute timestamp and the surrounding query text is
preserved.  The conjuncts show: the fixed-clock round trip of now-7d;
rewriting inside a field-range query with the other syntax kept; a full
ISO timestamp left alone (the T guard); a date followed by a further
digit left alone; a bare date anchored at midnight; the week, month and
year units as 7, 30 and 365 days; date plus arithmetic; and, in
general, now minus any digit string (within the datetime range) of days
rewritten to the strftime rendering of the shifted clock. -/
theorem date_math_rewrites_tokens :
    preprocessDateMath fixedClock (pstr "now-7d") =
      .ok (pstr "2024-06-08T12:00:00Z") ∧
    preprocessDateMath fixedClock (pstr "created_at:[now-7d TO now]") =
      .ok (pstr "created_at:[2024-06-08T12:00:00Z TO 2024-06-15T12:00:00Z]") ∧
    preprocessDateMath fixedClock (pstr "2024-06-15T12:00:00Z") =
      .ok (pstr "2024-06-15T12:00:00Z") ∧
    preprocessDateMath fixedClock (pstr "2024-06-155") =
      .ok (pstr "2024-06-155") ∧
    preprocessDateMath fixedClock (pstr "2024-01-15") =
      .ok (pstr "2024-01-15T00:00:00Z") ∧
    preprocessDateMath fixedClock (pstr "now+1w now+2M now+1y") =
      .ok (pstr "2024-06-22T12:00:00Z 2024-08-14T12:00:00Z 2025-06-15T12:00:00Z") ∧
    preprocessDateMath fixedClock (pstr "2024-01-15-7d") =
      .ok (pstr "2024-01-08T00:00:00Z") ∧
    ∀ ds : Str, ds ≠ [] → (∀ c ∈ ds, c.isDigit = true) →
      natOfDigits ds ≤ 700000 →
      ∃ dt, shiftDays fixedClock false (natOfDigits ds) = .ok dt ∧
        preprocessDateMath fixedClock (pstr "now-" ++ ds ++ ['d']) =
          .ok (strftimeZ dt) := by
  refine ⟨rfl, rfl, rfl, rfl, rfl, rfl, rfl, ?_⟩
  intro ds hne hdig hbound
  have htw := takeWhile_all_append Char.isDigit ds 'd' [] hdig (by decide)
  have hdE : ds.isEmpty = false := by
    cases ds with
    | nil => exact absurd rfl hne
    | cons a l => rfl
  have hok : shiftDays fixedClock false (natOfDigits ds) =
      .ok ⟨(civilFromDays (739357 - natOfDigits ds)).1,
        (civilFromDays (739357 - natOfDigits ds)).2.1,
        (civilFromDays (739357 - natOfDigits ds)).2.2, 12, 0, 0, 0⟩ := by
    unfold shiftDays
    simp only [Bool.false_eq_true, if_false]
    rw [show daysFromCivil fixedClock.year fixedClock.month fixedClock.day
      = 739357 from rfl]
    rw [show minDayCount = 306 from rfl]
    rw [if_pos (by omega : 306 + natOfDigits ds ≤ 739357)]
    rfl
  refine ⟨_, hok, ?_⟩
  have hma : matchArith ('-' :: (ds ++ ['d'])) =
      some (false, natOfDigits ds, 'd', []) := by
    simp only [matchArith]
    rw [if_pos (Or.inr trivial)]
    rw [htw.1, htw.2, hdE]
    simp only [Bool.false_eq_true, if_false]
    rw [if_pos (Or.inl trivial)]
    rw [show decide (('-' : Char) = '+') = false from rfl]
  have hmt : matchNowTok ('n' :: 'o' :: 'w' :: '-' :: (ds ++ ['d'])) =
      some (some (false, natOfDigits ds, 'd'), []) := by
    simp only [matchNowTok, hma]
  have hb : applyArith fixedClock (some (false, natOfDigits ds, 'd')) =
      .ok ⟨(civilFromDays (739357 - natOfDigits ds)).1,
        (civilFromDays (739357 - natOfDigits ds)).2.1,
        (civilFromDays (739357 - natOfDigits ds)).2.2, 12, 0, 0, 0⟩ := by
    show shiftDays fixedClock false (unitDays (natOfDigits ds) 'd') = _
    rw [show unitDays (natOfDigits ds) 'd' = natOfDigits ds from rfl]
    exact hok
  have hstep := ppScan_now_step fixedClock
    ('o' :: 'w' :: '-' :: (ds ++ ['d'])).length
    'n' ('o' :: 'w' :: '-' :: (ds ++ ['d']))
    (some (false, natOfDigits ds, 'd')) [] hmt _ hb [] (ppScan_nil _ _)
  rw [List.append_nil] at hstep
  exact hstep

/-- Witness for C9 at ds = "7": now minus seven days of the fixed
clock is 2024-06-08 at the same time of day. -/
theorem date_math_rewrites_tokens_witness :
    ∃ dt, shiftDays fixedClock false (natOfDigits (pstr "7")) = .ok dt ∧
      preprocessDateMath fixedClock (pstr "now-" ++ pstr "7" ++ ['d']) =
        .ok (strftimeZ dt) :=
  date_math_rewrites_tokens.2.2.2.2.2.2.2 (pstr "7") (by decide) (by decide)
    (by decide)

end BotNotes

namespace BotNotes

/-- Properties of a digit character. -/
theorem digitChar_props (k : Nat) (h : k < 10) :
    (digitChar k).isDigit = true ∧ isPySpace (digitChar k) = false ∧
      ¬ digitChar k = '\n' := by
  interval_cases k <;> exact ⟨rfl, rfl, by decide⟩

/-- Reading back a digit character. -/
theorem digitVal_digitChar (k : Nat) (h : k < 10) : digitVal (digitChar k) = k := by
  interval_cases k <;> rfl

/-- read2 inverts pad2. -/
theorem read2_pad2 (n : Nat) (h : n < 100) (rest : Str) :
    read2 (pad2 n ++ rest) = some (n, rest) := by
  have h1 : n / 10 < 10 := by omega
  have h2 : n % 10 < 10 := by omega
  show read2 (digitChar (n / 10) :: digitChar (n % 10) :: rest) = some (n, rest)
  simp only [read2]
  rw [(digitChar_props _ h1).1, (digitChar_props _ h2).1]
  simp only [Bool.and_self, if_true]
  rw [digitVal_digitChar _ h1, digitVal_digitChar _ h2]
  rw [show n / 10 * 10 + n % 10 = n from by omega]

/-- read4 inverts pad4. -/
theorem read4_pad4 (n : Nat) (h : n < 10000) (rest : Str) :
    read4 (pad4 n ++ rest) = some (n, rest) := by
  have h1 : n / 1000 < 10 := by omega
  have h2 : n / 100 % 10 < 10 := by omega
  have h3 : n / 10 % 10 < 10 := by omega
  have h4 : n % 10 < 10 := by omega
  show read4 (digitChar (n / 1000) :: digitChar (n / 100 % 10) ::
    digitChar (n / 10 % 10) :: digitChar (n % 10) :: rest) = some (n, rest)
  simp only [read4]
  rw [(digitChar_props _ h1).1, (digitChar_props _ h2).1,
    (digitChar_props _ h3).1, (digitChar_props _ h4).1]
  simp only [Bool.and_self, if_true]
  rw [digitVal_digitChar _ h1, digitVal_digitChar _ h2,
    digitVal_digitChar _ h3, digitVal_digitChar _ h4]
  rw [show ((n / 1000 * 10 + n / 100 % 10) * 10 + n / 10 % 10) * 10 + n % 10 = n
    from by omega]

/-- read6 inverts pad6. -/
theorem read6_pad6 (n : Nat) (h : n < 1000000) (rest : Str) :
    read6 (pad6 n ++ rest) = some (n, rest) := by
  have h1 : n / 100000 < 10 := by omega
  have h2 : n / 10000 % 10 < 10 := by omega
  have h3 : n / 1000 % 10 < 10 := by omega
  have h4 : n / 100 % 10 < 10 := by omega
  have h5 : n / 10 % 10 < 10 := by omega
  have h6 : n % 10 < 10 := by omega
  show read6 (digitChar (n / 100000) :: digitChar (n / 10000 % 10) ::
    digitChar (n / 1000 % 10) :: digitChar (n / 100 % 10) ::
    digitChar (n / 10 % 10) :: digitChar (n % 10) :: rest) = some (n, rest)
  simp only [read6]
  rw [(digitChar_props _ h1).1, (digitChar_props _ h2).1,
    (digitChar_props _ h3).1, (digitChar_props _ h4).1,
    (digitChar_props _ h5).1, (digitChar_props _ h6).1]
  simp only [Bool.and_self, if_true]
  rw [digitVal_digitChar _ h1, digitVal_digitChar _ h2, digitVal_digitChar _ h3,
    digitVal_digitChar _ h4, digitVal_digitChar _ h5, digitVal_digitChar _ h6]
  rw [show ((((n / 100000 * 10 + n / 10000 % 10) * 10 + n / 1000 % 10) * 10
    + n / 100 % 10) * 10 + n / 10 % 10) * 10 + n % 10 = n from by omega]

/-- expectCh accepts its own character. -/
theorem expectCh_cons (c : Char) (rest : Str) : expectCh c (c :: rest) = some rest := by
  simp [expectCh]

/-- Every month has at most 31 days. -/
theorem daysInMonth_le (y m : Nat) : daysInMonth y m ≤ 31 := by
  unfold daysInMonth
  split_ifs <;> omega

set_option maxHeartbeats 1000000 in
/-- fromisoformat inverts isoformat on every valid datetime. -/
theorem fromisoformat_isoformat (dt : DateTime) (h : dt.Valid) :
    fromisoformat (isoformat dt) = some dt := by
  obtain ⟨y, mo, d, hh, mi, ss, us⟩ := dt
  obtain ⟨hy1, hy2, hm1, hm2, hd1, hd2, hhh, hmi, hss, hus⟩ := h
  replace hy1 : 1 ≤ y := hy1
  replace hy2 : y ≤ 9999 := hy2
  replace hm1 : 1 ≤ mo := hm1
  replace hm2 : mo ≤ 12 := hm2
  replace hd1 : 1 ≤ d := hd1
  replace hd2 : d ≤ daysInMonth y mo := hd2
  replace hhh : hh < 24 := hhh
  replace hmi : mi < 60 := hmi
  replace hss : ss < 60 := hss
  replace hus : us < 1000000 := hus
  have hd31 := daysInMonth_le y mo
  have hssr : read2 (pad2 ss) = some (ss, []) := by
    have := read2_pad2 ss (by omega) []
    rwa [List.append_nil] at this
  have husr : read6 (pad6 us) = some (us, []) := by
    have := read6_pad6 us (by omega) []
    rwa [List.append_nil] at this
  by_cases hus0 : us = 0
  · subst hus0
    show fromisoformat (pad4 y ++ '-' :: pad2 mo ++ '-' :: pad2 d ++
      'T' :: pad2 hh ++ ':' :: pad2 mi ++ ':' :: pad2 ss ++ ([] : Str)) = _
    simp only [List.append_assoc, List.cons_append, List.append_nil]
    simp only [fromisoformat, read4_pad4 y (by omega), Option.bind_eq_bind,
      Option.some_bind, expectCh_cons, read2_pad2 mo (by omega),
      read2_pad2 d (by omega), read2_pad2 hh (by omega),
      read2_pad2 mi (by omega), hssr]
    rw [if_pos]
    exact ⟨hy1, hy2, hm1, hm2, hd1, hd2, hhh, hmi, hss,
      show (0 : Nat) < 1000000 by decide⟩
  · have hiso : isoformat ⟨y, mo, d, hh, mi, ss, us⟩ =
        pad4 y ++ '-' :: pad2 mo ++ '-' :: pad2 d ++ 'T' :: pad2 hh ++
          ':' :: pad2 mi ++ ':' :: pad2 ss ++ ('.' :: pad6 us) := by
      simp only [isoformat]
      rw [if_neg hus0]
    rw [hiso]
    simp only [List.append_assoc, List.cons_append]
    simp only [fromisoformat, read4_pad4 y (by omega), Option.bind_eq_bind,
      Option.some_bind, expectCh_cons, read2_pad2 mo (by omega),
      read2_pad2 d (by omega), read2_pad2 hh (by omega),
      read2_pad2 mi (by omega), read2_pad2 ss (by omega), husr]
    rw [if_pos]
    exact ⟨hy1, hy2, hm1, hm2, hd1, hd2, hhh, hmi, hss, hus⟩

end BotNotes

namespace BotNotes

/-- A string of non-whitespace characters is its own strip. -/
theorem pyStrip_of_no_space (s : Str) (h : ∀ c ∈ s, isPySpace c = false) :
    pyStrip s = s := by
  have hd : ∀ l : Str, (∀ c ∈ l, isPySpace c = false) →
      l.dropWhile isPySpace = l := by
    intro l hl
    cases l with
    | nil => rfl
    | cons c r =>
      rw [List.dropWhile_cons, hl c (by simp)]
      simp
  unfold pyStrip
  rw [hd s h, hd s.reverse fun c hc => h c (List.mem_reverse.mp hc),
    List.reverse_reverse]

/-- Stripping absorbs one leading space. -/
theorem pyStrip_cons_space (s : Str) : pyStrip (' ' :: s) = pyStrip s := by
  unfold pyStrip
  rw [List.dropWhile_cons]
  rw [show isPySpace ' ' = true from rfl]
  simp

/-- A character unequal to every stripped character under a Bool class
test. -/
theorem bool_class_ne (p : Char → Bool) (c x : Char) (h : p c = true)
    (hx : p x = false) : ¬ c = x := by
  intro he
  rw [he, hx] at h
  exact Bool.noConfusion h

/-- A digit character is neither whitespace nor a newline. -/
theorem isDigit_not_space (c : Char) (h : c.isDigit = true) :
    isPySpace c = false ∧ ¬ c = '\n' := by
  have h1 := bool_class_ne Char.isDigit c ' ' h (by decide)
  have h2 := bool_class_ne Char.isDigit c '\t' h (by decide)
  have h3 := bool_class_ne Char.isDigit c '\n' h (by decide)
  have h4 := bool_class_ne Char.isDigit c '\r' h (by decide)
  have h5 := bool_class_ne Char.isDigit c '\x0b' h (by decide)
  have h6 := bool_class_ne Char.isDigit c '\x0c' h (by decide)
  refine ⟨?_, h3⟩
  simp [isPySpace, beq_eq_false_iff_ne, h1, h2, h3, h4, h5, h6]

/-- Members of the fixed-width paddings are digit characters. -/
theorem pad_mem_isDigit (n : Nat) :
    (n < 100 → ∀ c ∈ pad2 n, c.isDigit = true) ∧
    (n < 10000 → ∀ c ∈ pad4 n, c.isDigit = true) ∧
    (n < 1000000 → ∀ c ∈ pad6 n, c.isDigit = true) := by
  refine ⟨fun h c hc => ?_, fun h c hc => ?_, fun h c hc => ?_⟩
  · simp only [pad2, List.mem_cons, List.not_mem_nil, or_false] at hc
    rcases hc with rfl | rfl
    · exact (digitChar_props _ (by omega)).1
    · exact (digitChar_props _ (by omega)).1
  · simp only [pad4, List.mem_cons, List.not_mem_nil, or_false] at hc
    rcases hc with rfl | rfl | rfl | rfl
    · exact (digitChar_props _ (by omega)).1
    · exact (digitChar_props _ (by omega)).1
    · exact (digitChar_props _ (by omega)).1
    · exact (digitChar_props _ (by omega)).1
  · simp only [pad6, List.mem_cons, List.not_mem_nil, or_false] at hc
    rcases hc with rfl | rfl | rfl | rfl | rfl | rfl
    · exact (digitChar_props _ (by omega)).1
    · exact (digitChar_props _ (by omega)).1
    · exact (digitChar_props _ (by omega)).1
    · exact (digitChar_props _ (by omega)).1
    · exact (digitChar_props _ (by omega)).1
    · exact (digitChar_props _ (by omega)).1

/-- Characters of a serialized valid datetime are neither whitespace
nor newlines. -/
theorem isoformat_mem (dt : DateTime) (h : dt.Valid) :
    ∀ c ∈ isoformat dt, isPySpace c = false ∧ ¬ c = '\n' := by
  obtain ⟨y, mo, d, hh, mi, ss, us⟩ := dt
  obtain ⟨hy1, hy2, hm1, hm2, hd1, hd2, hhh, hmi, hss, hus⟩ := h
  replace hy2 : y ≤ 9999 := hy2
  replace hm2 : mo ≤ 12 := hm2
  replace hd2 : d ≤ daysInMonth y mo := hd2
  replace hhh : hh < 24 := hhh
  replace hmi : mi < 60 := hmi
  replace hss : ss < 60 := hss
  replace hus : us < 1000000 := hus
  have hd31 := daysInMonth_le y mo
  intro c hc
  simp only [isoformat, List.mem_append, List.mem_cons] at hc
  rcases hc with (((((h2 | rfl | h2) | rfl | h2) | rfl | h2) | rfl | h2)
      | rfl | h2) | h2
  · exact isDigit_not_space c ((pad_mem_isDigit y).2.1 (by omega) c h2)
  · exact ⟨rfl, by decide⟩
  · exact isDigit_not_space c ((pad_mem_isDigit mo).1 (by omega) c h2)
  · exact ⟨rfl, by decide⟩
  · exact isDigit_not_space c ((pad_mem_isDigit d).1 (by omega) c h2)
  · exact ⟨rfl, by decide⟩
  · exact isDigit_not_space c ((pad_mem_isDigit hh).1 (by omega) c h2)
  · exact ⟨rfl, by decide⟩
  · exact isDigit_not_space c ((pad_mem_isDigit mi).1 (by omega) c h2)
  · exact ⟨rfl, by decide⟩
  · exact isDigit_not_space c ((pad_mem_isDigit ss).1 (by omega) c h2)
  · by_cases hus0 : us = 0
    · rw [if_pos hus0] at h2
      exact absurd h2 (List.not_mem_nil c)
    · rw [if_neg hus0] at h2
      rcases List.mem_cons.mp h2 with rfl | h3
      · exact ⟨rfl, by decide⟩
      · exact isDigit_not_space c ((pad_mem_isDigit us).2.2 (by omega) c h3)

/-- A strip whose ends are both non-whitespace is the identity even
when spaces occur in the middle. -/
theorem pyStrip_sandwich (a b : Char) (t : Str) (ha : isPySpace a = false)
    (hb : isPySpace b = false) :
    pyStrip (a :: (t ++ [b])) = a :: (t ++ [b]) := by
  unfold pyStrip
  rw [List.dropWhile_cons, ha]
  simp only [Bool.false_eq_true, if_false, List.reverse_cons, List.reverse_append,
    List.reverse_cons, List.reverse_nil, List.nil_append, List.cons_append,
    List.dropWhile_cons, hb, Bool.false_eq_true, if_false]
  simp

/-- A tag character is not whitespace, not a comma and not a newline. -/
theorem tagChar_props (c : Char) (h : isTagChar c = true) :
    isPySpace c = false ∧ ¬ c = ',' ∧ ¬ c = '\n' := by
  have h1 := bool_class_ne isTagChar c ' ' h (by decide)
  have h2 := bool_class_ne isTagChar c '\t' h (by decide)
  have h3 := bool_class_ne isTagChar c '\n' h (by decide)
  have h4 := bool_class_ne isTagChar c '\r' h (by decide)
  have h5 := bool_class_ne isTagChar c '\x0b' h (by decide)
  have h6 := bool_class_ne isTagChar c '\x0c' h (by decide)
  have h7 := bool_class_ne isTagChar c ',' h (by decide)
  refine ⟨?_, h7, h3⟩
  simp [isPySpace, beq_eq_false_iff_ne, h1, h2, h3, h4, h5, h6]

/-- A title that fixes validate_title is its own strip. -/
theorem validateTitle_fix (t : Str) (h : validateTitle t = .ok t) :
    pyStrip t = t := by
  simp only [validateTitle] at h
  split_ifs at h
  exact Except.ok.inj h

/-- Cons cells with different heads differ. -/
theorem ne_of_head_ne (a b : Char) (xs ys : Str) (h : ¬ a = b) :
    ¬ a :: xs = b :: ys :=
  fun he => h (List.cons.inj he).1

/-- A split is never the empty list of pieces. -/
theorem splitOnChar_ne_nil (sep : Char) (s : Str) : splitOnChar sep s ≠ [] := by
  cases s with
  | nil => simp [splitOnChar]
  | cons c rest =>
    simp only [splitOnChar]
    split_ifs
    · simp
    · split <;> simp

/-- Splitting a string free of the separator yields one piece. -/
theorem splitOnChar_no_sep (sep : Char) (s : Str)
    (h : ∀ c ∈ s, ¬ c = sep) : splitOnChar sep s = [s] := by
  induction s with
  | nil => rfl
  | cons c rest ih =>
    simp only [splitOnChar, if_neg (h c (by simp))]
    rw [ih fun x hx => h x (by simp [hx])]

/-- Splitting distributes over the first separator occurrence. -/
theorem splitOnChar_append_sep (sep : Char) (t r : Str)
    (h : ∀ c ∈ t, ¬ c = sep) :
    splitOnChar sep (t ++ sep :: r) = t :: splitOnChar sep r := by
  induction t with
  | nil => simp [splitOnChar]
  | cons c rest ih =>
    rw [List.cons_append]
    simp only [splitOnChar, if_neg (h c (by simp))]
    rw [ih fun x hx => h x (by simp [hx])]

/-- Splitting the newline-joined header recovers the lines. -/
theorem splitLines_headerOf (lines : List Str) (hne : lines ≠ [])
    (h : ∀ l ∈ lines, ∀ c ∈ l, ¬ c = '\n') :
    splitLines (headerOf lines) = lines := by
  induction lines with
  | nil => exact absurd rfl hne
  | cons l ls ih =>
    cases ls with
    | nil =>
      show splitOnChar '\n' l = [l]
      exact splitOnChar_no_sep '\n' l (h l (by simp))
    | cons l2 ls2 =>
      show splitOnChar '\n' (l ++ '\n' :: headerOf (l2 :: ls2)) = _
      rw [splitOnChar_append_sep '\n' l _ (h l (by simp))]
      rw [show splitOnChar '\n' (headerOf (l2 :: ls2)) =
        splitLines (headerOf (l2 :: ls2)) from rfl]
      rw [ih (by simp) fun x hx => h x (by simp [hx])]

/-- Characters of joined tags come from a tag or from the separator. -/
theorem joinComma_mem (tags : List Str) (c : Char)
    (hc : c ∈ joinComma tags) :
    (∃ t ∈ tags, c ∈ t) ∨ c = ',' ∨ c = ' ' := by
  induction tags with
  | nil => exact absurd hc (List.not_mem_nil c)
  | cons t ts ih =>
    cases ts with
    | nil =>
      left
      exact ⟨t, by simp, hc⟩
    | cons t2 ts2 =>
      rw [show joinComma (t :: t2 :: ts2) =
        t ++ ',' :: ' ' :: joinComma (t2 :: ts2) from rfl] at hc
      simp only [List.mem_append, List.mem_cons] at hc
      rcases hc with h1 | rfl | rfl | h2
      · exact Or.inl ⟨t, by simp, h1⟩
      · exact Or.inr (Or.inl rfl)
      · exact Or.inr (Or.inr rfl)
      · rcases ih h2 with ⟨u, hu, hcu⟩ | h3
        · exact Or.inl ⟨u, by simp [hu], hcu⟩
        · exact Or.inr h3

/-- Splitting the comma-joined tags and re-stripping recovers the
tags, dropping nothing. -/
theorem splitComma_joinComma (tags : List Str)
    (h : ∀ t ∈ tags, t ≠ [] ∧ ∀ c ∈ t, isTagChar c = true) :
    (splitOnChar ',' (joinComma tags)).filterMap (fun t =>
      let v := pyStrip t
      if v.isEmpty then none else some v) = tags := by
  induction tags with
  | nil => rfl
  | cons t ts ih =>
    have ht := h t (by simp)
    have htstrip : pyStrip t = t :=
      pyStrip_of_no_space t fun c hc => (tagChar_props c (ht.2 c hc)).1
    have htne : t.isEmpty = false := by
      cases t with
      | nil => exact absurd rfl ht.1
      | cons a r => rfl
    cases ts with
    | nil =>
      rw [show joinComma [t] = t from rfl,
        splitOnChar_no_sep ',' t fun c hc => (tagChar_props c (ht.2 c hc)).2.1,
        List.filterMap_cons]
      simp only [htstrip, htne]
      simp
    | cons t2 ts2 =>
      rw [show joinComma (t :: t2 :: ts2) =
        t ++ ',' :: ' ' :: joinComma (t2 :: ts2) from rfl,
        splitOnChar_append_sep ',' t _
          fun c hc => (tagChar_props c (ht.2 c hc)).2.1]
      obtain ⟨l, ls, hls⟩ : ∃ l ls,
          splitOnChar ',' (joinComma (t2 :: ts2)) = l :: ls := by
        cases hsp : splitOnChar ',' (joinComma (t2 :: ts2)) with
        | nil => exact absurd hsp (splitOnChar_ne_nil ',' _)
        | cons l ls => exact ⟨l, ls, rfl⟩
      have hsp2 : splitOnChar ',' (' ' :: joinComma (t2 :: ts2)) =
          (' ' :: l) :: ls := by
        simp only [splitOnChar, if_neg (by decide : ¬ (' ' : Char) = ',')]
        rw [hls]
      rw [hsp2, List.filterMap_cons, List.filterMap_cons]
      simp only [htstrip, htne, pyStrip_cons_space]
      have hih := ih fun u hu => h u (by simp [hu])
      rw [hls, List.filterMap_cons] at hih
      simp only at hih
      rw [hih]
      simp

/-- The tag validator fixes every list of already-valid tags. -/
theorem validateTags_of_valid (ts : List Str)
    (h : ∀ t ∈ ts, t ≠ [] ∧ ∀ c ∈ t, isTagChar c = true) :
    validateTags ts = ts := by
  induction ts with
  | nil => rfl
  | cons t ts ih =>
    have ht := h t (by simp)
    have htstrip : pyStrip t = t :=
      pyStrip_of_no_space t fun c hc => (tagChar_props c (ht.2 c hc)).1
    have htne : t.isEmpty = false := by
      cases t with
      | nil => exact absurd rfl ht.1
      | cons a r => rfl
    have hall : t.all isTagChar = true := List.all_eq_true.mpr (ht.2)
    have hstep : validateTags (t :: ts) = t :: validateTags ts := by
      simp only [validateTags, List.filterMap_cons, htstrip, htne, hall]
      simp
    rw [hstep, ih fun u hu => h u (by simp [hu])]

/-- A list is a prefix of itself followed by anything. -/
theorem isPrefixOf_append_self (l r : Str) : l.isPrefixOf (l ++ r) = true := by
  induction l with
  | nil => simp [List.isPrefixOf]
  | cons c cl ih => simp [List.isPrefixOf, ih]

/-- A newline-free line other than the bare fence never starts a
closing fence when followed by a newline. -/
theorem fence_not_prefix (l2 t : Str) (hnl : ∀ c ∈ l2, ¬ c = '\n')
    (hne : ¬ l2 = pstr "---") :
    (pstr "---\n").isPrefixOf (l2 ++ '\n' :: t) = false := by
  rw [show pstr "---\n" = '-' :: '-' :: '-' :: '\n' :: ([] : Str) from rfl]
  rcases l2 with _ | ⟨a, _ | ⟨b, _ | ⟨c2, _ | ⟨d, r⟩⟩⟩⟩
  · simp [List.isPrefixOf]
  · simp [List.isPrefixOf]
  · simp [List.isPrefixOf]
  · have h3 : ¬ ('-' = a ∧ '-' = b ∧ '-' = c2) := by
      rintro ⟨rfl, rfl, rfl⟩
      exact hne rfl
    simp only [List.cons_append, List.nil_append, List.isPrefixOf]
    simp [beq_iff_eq]
    tauto
  · have hd : ¬ '\n' = d := fun he => hnl d (by simp) he.symm
    simp only [List.cons_append, List.isPrefixOf]
    simp [beq_iff_eq, hd]

/-- Scanning over a newline-free chunk only accumulates it. -/
theorem findSep_skip (l : Str) (hl : ∀ c ∈ l, ¬ c = '\n') (f : Nat)
    (rest : Str) :
    findSep (l.length + f) (l ++ rest) =
      (findSep f rest).map fun p => (l ++ p.1, p.2) := by
  induction l with
  | nil =>
    simp only [List.length_nil, Nat.zero_add, List.nil_append]
    cases h : findSep f rest <;> simp [h]
  | cons c cl ih =>
    have hc : ¬ c = '\n' := hl c (by simp)
    rw [show (c :: cl).length + f = (cl.length + f) + 1 from by
      simp [List.length_cons]; omega]
    rw [List.cons_append]
    simp only [findSep]
    rw [if_neg fun hcc => hc hcc.1]
    rw [ih fun x hx => hl x (by simp [hx])]
    cases h : findSep f rest <;> simp [h]

/-- The scan stops at a newline that opens the closing fence. -/
theorem findSep_hit (rest : Str) (f : Nat)
    (h : (pstr "---\n").isPrefixOf rest = true) :
    findSep (f + 1) ('\n' :: rest) = some ([], rest.drop 4) := by
  simp only [findSep]
  rw [if_pos ⟨trivial, h⟩]

/-- The scan passes a newline that does not open the closing fence. -/
theorem findSep_nl_skip (rest : Str) (f : Nat)
    (h : (pstr "---\n").isPrefixOf rest = false) :
    findSep (f + 1) ('\n' :: rest) =
      (findSep f rest).map fun p => ('\n' :: p.1, p.2) := by
  simp only [findSep]
  rw [if_neg fun hc => by rw [hc.2] at h; exact Bool.noConfusion h]
  cases h2 : findSep f rest <;> simp [h2]

/-- The serialized block after the opening fence is the header, a
newline, the closing fence, and the body. -/
theorem joined_eq_header (lines : List Str) (body : Str) (hne : lines ≠ []) :
    joined lines body = headerOf lines ++ '\n' :: (pstr "---\n" ++ body) := by
  induction lines with
  | nil => exact absurd rfl hne
  | cons l ls ih =>
    cases ls with
    | nil => rfl
    | cons l2 ls2 =>
      show l ++ '\n' :: joined (l2 :: ls2) body = _
      rw [ih (by simp)]
      rw [show headerOf (l :: l2 :: ls2) =
        l ++ '\n' :: headerOf (l2 :: ls2) from rfl]
      simp [List.append_assoc]

/-- The frontmatter scan of a serialized block finds exactly the
header and the body, for any sufficient fuel. -/
theorem findSep_joined (lines : List Str) (body : Str) (hne : lines ≠ [])
    (hl : ∀ l ∈ lines, (∀ c ∈ l, ¬ c = '\n') ∧ ¬ l = pstr "---") :
    ∀ f, (headerOf lines).length < f →
      findSep f (joined lines body) = some (headerOf lines, body) := by
  induction lines with
  | nil => exact absurd rfl hne
  | cons l ls ih =>
    cases ls with
    | nil =>
      intro f hf
      obtain ⟨k, rfl⟩ : ∃ k, f = l.length + (k + 1) :=
        ⟨f - l.length - 1, by
          have hh : (headerOf [l]).length = l.length := rfl
          omega⟩
      show findSep (l.length + (k + 1))
        (l ++ '\n' :: (pstr "---\n" ++ body)) = _
      rw [findSep_skip l (hl l (by simp)).1 (k + 1) _]
      rw [findSep_hit _ k (isPrefixOf_append_self _ _)]
      have hdrop : (pstr "---\n" ++ body).drop 4 = body := by
        rw [show (4 : Nat) = (pstr "---\n").length from rfl, List.drop_left]
      rw [hdrop]
      simp [headerOf]
    | cons l2 ls2 =>
      intro f hf
      have hlen : (headerOf (l :: l2 :: ls2)).length =
          l.length + 1 + (headerOf (l2 :: ls2)).length := by
        rw [show headerOf (l :: l2 :: ls2) =
          l ++ '\n' :: headerOf (l2 :: ls2) from rfl]
        simp [List.length_append]
        omega
      obtain ⟨k, rfl⟩ : ∃ k, f = l.length + (k + 1) :=
        ⟨f - l.length - 1, by omega⟩
      have hk : (headerOf (l2 :: ls2)).length < k := by omega
      show findSep (l.length + (k + 1))
        (l ++ '\n' :: joined (l2 :: ls2) body) = _
      rw [findSep_skip l (hl l (by simp)).1 (k + 1) _]
      have hfence : (pstr "---\n").isPrefixOf (joined (l2 :: ls2) body)
          = false := by
        show (pstr "---\n").isPrefixOf (l2 ++ '\n' :: joined ls2 body) = false
        exact fence_not_prefix l2 _ (hl l2 (by simp)).1 (hl l2 (by simp)).2
      rw [findSep_nl_skip _ k hfence]
      rw [ih (by simp) (fun x hx => hl x (by simp [hx])) k hk]
      rw [show headerOf (l :: l2 :: ls2) =
        l ++ '\n' :: headerOf (l2 :: ls2) from rfl]
      simp

/-- The frontmatter regex applied to a serialized block captures the
header and leaves the body. -/
theorem fmSplit_joined (lines : List Str) (body : Str) (hne : lines ≠ [])
    (hl : ∀ l ∈ lines, (∀ c ∈ l, ¬ c = '\n') ∧ ¬ l = pstr "---") :
    fmSplit (pstr "---\n" ++ joined lines body) =
      some (headerOf lines, body) := by
  unfold fmSplit
  rw [if_pos (isPrefixOf_append_self _ _)]
  have hdrop : (pstr "---\n" ++ joined lines body).drop 4 =
      joined lines body := by
    rw [show (4 : Nat) = (pstr "---\n").length from rfl, List.drop_left]
  rw [hdrop]
  apply findSep_joined lines body hne hl
  rw [joined_eq_header lines body hne]
  simp [List.length_append]

/-- A false boolean is not true. -/
theorem bool_ne_true (b : Bool) (h : b = false) : ¬ b = true := by simp [h]

/-- The field loop on a title line stores the stripped title. -/
theorem applyFmLine_title (acc : FmFields) (t : Str) :
    applyFmLine acc (pstr "title: " ++ t) =
      { acc with title := pyStrip t } := by
  have hp : (pstr "title:").isPrefixOf (pstr "title: " ++ t) = true := by
    rw [show pstr "title: " = pstr "title:" ++ [' '] from rfl,
      List.append_assoc]
    exact isPrefixOf_append_self _ _
  simp only [applyFmLine]
  rw [if_pos hp]
  rw [show (pstr "title: " ++ t).drop 6 = ' ' :: t from rfl,
    pyStrip_cons_space]

/-- The field loop on a created line stores the parsed timestamp. -/
theorem applyFmLine_created (acc : FmFields) (s : Str) (dt : DateTime)
    (hns : pyStrip s = s) (hiso : fromisoformat s = some dt) :
    applyFmLine acc (pstr "created: " ++ s) =
      { acc with created_at := dt } := by
  have h1 : (pstr "title:").isPrefixOf (pstr "created: " ++ s) = false := rfl
  have h2 : (pstr "tags:").isPrefixOf (pstr "created: " ++ s) = false := rfl
  have h3 : (pstr "created:").isPrefixOf (pstr "created: " ++ s) = true := by
    rw [show pstr "created: " = pstr "created:" ++ [' '] from rfl,
      List.append_assoc]
    exact isPrefixOf_append_self _ _
  simp only [applyFmLine]
  rw [if_neg (bool_ne_true _ h1), if_neg (bool_ne_true _ h2), if_pos h3]
  rw [show (pstr "created: " ++ s).drop 8 = ' ' :: s from rfl,
    pyStrip_cons_space, hns, hiso]

/-- The field loop on an updated line stores the parsed timestamp. -/
theorem applyFmLine_updated (acc : FmFields) (s : Str) (dt : DateTime)
    (hns : pyStrip s = s) (hiso : fromisoformat s = some dt) :
    applyFmLine acc (pstr "updated: " ++ s) =
      { acc with updated_at := dt } := by
  have h1 : (pstr "title:").isPrefixOf (pstr "updated: " ++ s) = false := rfl
  have h2 : (pstr "tags:").isPrefixOf (pstr "updated: " ++ s) = false := rfl
  have h3 : (pstr "created:").isPrefixOf (pstr "updated: " ++ s) = false := rfl
  have h4 : (pstr "updated:").isPrefixOf (pstr "updated: " ++ s) = true := by
    rw [show pstr "updated: " = pstr "updated:" ++ [' '] from rfl,
      List.append_assoc]
    exact isPrefixOf_append_self _ _
  simp only [applyFmLine]
  rw [if_neg (bool_ne_true _ h1), if_neg (bool_ne_true _ h2),
    if_neg (bool_ne_true _ h3), if_pos h4]
  rw [show (pstr "updated: " ++ s).drop 8 = ' ' :: s from rfl,
    pyStrip_cons_space, hns, hiso]

/-- The bracketed joined tags parse back to the tags. -/
theorem parseTagsLine_joinComma (ts : List Str)
    (h : ∀ t ∈ ts, t ≠ [] ∧ ∀ c ∈ t, isTagChar c = true) :
    parseTagsLine ('[' :: (joinComma ts ++ [']'])) = some ts := by
  have hs := splitComma_joinComma ts h
  simp only [parseTagsLine]
  rw [show (joinComma ts ++ [']']).reverse =
    ']' :: (joinComma ts).reverse from by simp]
  simpa using hs

/-- The field loop on a tags line stores the parsed tags. -/
theorem applyFmLine_tags (acc : FmFields) (ts : List Str)
    (h : ∀ t ∈ ts, t ≠ [] ∧ ∀ c ∈ t, isTagChar c = true) :
    applyFmLine acc (pstr "tags: [" ++ joinComma ts ++ [']']) =
      { acc with tags := ts } := by
  have h1 : (pstr "title:").isPrefixOf
      (pstr "tags: [" ++ joinComma ts ++ [']']) = false := rfl
  have h2 : (pstr "tags:").isPrefixOf
      (pstr "tags: [" ++ joinComma ts ++ [']']) = true := by
    rw [show pstr "tags: [" = pstr "tags:" ++ [' ', '['] from rfl,
      List.append_assoc, List.append_assoc]
    exact isPrefixOf_append_self _ _
  simp only [applyFmLine]
  rw [if_neg (bool_ne_true _ h1), if_pos h2]
  rw [show (pstr "tags: [" ++ joinComma ts ++ [']']).drop 5 =
    ' ' :: '[' :: (joinComma ts ++ [']']) from rfl]
  rw [pyStrip_cons_space]
  rw [pyStrip_sandwich '[' ']' (joinComma ts) (by decide) (by decide)]
  rw [parseTagsLine_joinComma ts h]

/-- The serializer emits the opening fence followed by the joined
frontmatter lines and body. -/
theorem to_markdown_eq (n : Note) :
    to_markdown n = pstr "---\n" ++ joined (fmLines n) n.content := by
  have h1 : pstr "---\ntitle: " = pstr "---\n" ++ pstr "title: " := rfl
  have h2 : pstr "\ncreated: " = '\n' :: pstr "created: " := rfl
  have h3 : pstr "\nupdated: " = '\n' :: pstr "updated: " := rfl
  have h4 : pstr "\ntags: [" = '\n' :: pstr "tags: [" := rfl
  have h5 : pstr "\n---\n" = '\n' :: pstr "---\n" := rfl
  by_cases ht : n.tags.isEmpty
  · simp [to_markdown, joined, fmLines, ht, h1, h2, h3, h5, List.append_assoc]
  · simp [to_markdown, joined, fmLines, ht, h1, h2, h3, h4, h5,
      List.append_assoc]

/-- A note always serializes at least three frontmatter lines. -/
theorem fmLines_ne_nil (n : Note) : fmLines n ≠ [] := by
  by_cases ht : n.tags.isEmpty <;> simp [fmLines, ht]

/-- The frontmatter lines of a valid note with a newline-free title
are newline free and none of them is a bare fence. -/
theorem fmLines_props (n : Note) (hv : NoteValid n)
    (ht : ∀ c ∈ n.title, ¬ c = '\n') :
    ∀ l ∈ fmLines n, (∀ c ∈ l, ¬ c = '\n') ∧ ¬ l = pstr "---" := by
  have hA : ∀ c ∈ pstr "title: ", ¬ c = '\n' := by decide
  have hB : ∀ c ∈ pstr "created: ", ¬ c = '\n' := by decide
  have hC : ∀ c ∈ pstr "updated: ", ¬ c = '\n' := by decide
  have hD : ∀ c ∈ pstr "tags: [", ¬ c = '\n' := by decide
  have hisoC := isoformat_mem n.created_at hv.2.2.2.1
  have hisoU := isoformat_mem n.updated_at hv.2.2.2.2
  have htitle : ∀ c ∈ pstr "title: " ++ n.title, ¬ c = '\n' := by
    intro c hc
    rcases List.mem_append.mp hc with h1 | h1
    · exact hA c h1
    · exact ht c h1
  have hcreated : ∀ c ∈ pstr "created: " ++ isoformat n.created_at,
      ¬ c = '\n' := by
    intro c hc
    rcases List.mem_append.mp hc with h1 | h1
    · exact hB c h1
    · exact (hisoC c h1).2
  have hupdated : ∀ c ∈ pstr "updated: " ++ isoformat n.updated_at,
      ¬ c = '\n' := by
    intro c hc
    rcases List.mem_append.mp hc with h1 | h1
    · exact hC c h1
    · exact (hisoU c h1).2
  have htags : ∀ c ∈ pstr "tags: [" ++ joinComma n.tags ++ [']'],
      ¬ c = '\n' := by
    intro c hc
    rcases List.mem_append.mp hc with h1 | h1
    · rcases List.mem_append.mp h1 with h2 | h2
      · exact hD c h2
      · rcases joinComma_mem n.tags c h2 with ⟨u, hu, hcu⟩ | rfl | rfl
        · exact (tagChar_props c ((hv.2.2.1 u hu).2 c hcu)).2.2
        · decide
        · decide
    · simp only [List.mem_cons, List.not_mem_nil, or_false] at h1
      subst h1
      decide
  have hne1 : ¬ pstr "title: " ++ n.title = pstr "---" := fun he =>
    absurd (List.cons.inj (show ('t' : Char) :: (pstr "itle: " ++ n.title) =
      '-' :: pstr "--" from he)).1 (by decide)
  have hne2 : ¬ pstr "created: " ++ isoformat n.created_at = pstr "---" :=
    fun he => absurd (List.cons.inj (show ('c' : Char) ::
      (pstr "reated: " ++ isoformat n.created_at) =
      '-' :: pstr "--" from he)).1 (by decide)
  have hne3 : ¬ pstr "updated: " ++ isoformat n.updated_at = pstr "---" :=
    fun he => absurd (List.cons.inj (show ('u' : Char) ::
      (pstr "pdated: " ++ isoformat n.updated_at) =
      '-' :: pstr "--" from he)).1 (by decide)
  have hne4 : ¬ pstr "tags: [" ++ joinComma n.tags ++ [']'] = pstr "---" :=
    fun he => absurd (List.cons.inj (show ('t' : Char) ::
      ((pstr "ags: [" ++ joinComma n.tags) ++ [']']) =
      '-' :: pstr "--" from he)).1 (by decide)
  intro l hl
  by_cases ht2 : n.tags.isEmpty
  · simp [fmLines, ht2] at hl
    rcases hl with rfl | rfl | rfl
    · exact ⟨htitle, hne1⟩
    · exact ⟨hcreated, hne2⟩
    · exact ⟨hupdated, hne3⟩
  · simp [fmLines, ht2] at hl
    rcases hl with rfl | rfl | rfl | rfl
    · exact ⟨htitle, hne1⟩
    · exact ⟨hcreated, hne2⟩
    · exact ⟨hupdated, hne3⟩
    · exact ⟨htags, hne4⟩

/-- C10: For every valid Note whose title contains no newline
character, the serialization round trip is the identity:
Note.from_markdown applied to the note's own path and its to_markdown
output reproduces the note exactly, with the body restored byte for
byte after the frontmatter header and title, tags, created_at and
updated_at all equal to the original fields. -/
theorem from_markdown_to_markdown_roundtrip (now : DateTime) (n : Note)
    (hv : NoteValid n) (ht : ∀ c ∈ n.title, ¬ c = '\n') :
    from_markdown now n.path (to_markdown n) = .ok n := by
  have hsplit : fmSplit (to_markdown n) =
      some (headerOf (fmLines n), n.content) := by
    rw [to_markdown_eq]
    exact fmSplit_joined (fmLines n) n.content (fmLines_ne_nil n)
      (fmLines_props n hv ht)
  have hlines : splitLines (headerOf (fmLines n)) = fmLines n :=
    splitLines_headerOf (fmLines n) (fmLines_ne_nil n)
      fun l hl => (fmLines_props n hv ht l hl).1
  have hstripT : pyStrip n.title = n.title := validateTitle_fix n.title hv.2.1
  have hisoC : pyStrip (isoformat n.created_at) = isoformat n.created_at :=
    pyStrip_of_no_space _ fun c hc =>
      (isoformat_mem n.created_at hv.2.2.2.1 c hc).1
  have hisoU : pyStrip (isoformat n.updated_at) = isoformat n.updated_at :=
    pyStrip_of_no_space _ fun c hc =>
      (isoformat_mem n.updated_at hv.2.2.2.2 c hc).1
  have hfioC : fromisoformat (isoformat n.created_at) = some n.created_at :=
    fromisoformat_isoformat _ hv.2.2.2.1
  have hfioU : fromisoformat (isoformat n.updated_at) = some n.updated_at :=
    fromisoformat_isoformat _ hv.2.2.2.2
  have hfold : (fmLines n).foldl applyFmLine
      ⟨(n.path.splitOn '/').getLastD [], [], now, now⟩ =
      ⟨n.title, n.tags, n.created_at, n.updated_at⟩ := by
    by_cases ht2 : n.tags.isEmpty
    · have htags0 : n.tags = [] := by simpa using ht2
      rw [show fmLines n = [pstr "title: " ++ n.title,
        pstr "created: " ++ isoformat n.created_at,
        pstr "updated: " ++ isoformat n.updated_at] from by
          simp [fmLines, ht2]]
      simp only [List.foldl_cons, List.foldl_nil]
      rw [applyFmLine_title, applyFmLine_created _ _ _ hisoC hfioC,
        applyFmLine_updated _ _ _ hisoU hfioU, hstripT, htags0]
    · rw [show fmLines n = [pstr "title: " ++ n.title,
        pstr "created: " ++ isoformat n.created_at,
        pstr "updated: " ++ isoformat n.updated_at,
        pstr "tags: [" ++ joinComma n.tags ++ [']']] from by
          simp [fmLines, ht2]]
      simp only [List.foldl_cons, List.foldl_nil]
      rw [applyFmLine_title, applyFmLine_created _ _ _ hisoC hfioC,
        applyFmLine_updated _ _ _ hisoU hfioU,
        applyFmLine_tags _ n.tags hv.2.2.1, hstripT]
  have hmk : mkNote n.path n.title n.content n.tags n.created_at
      n.updated_at = .ok n := by
    unfold mkNote
    rw [hv.1, hv.2.1]
    show Except.ok ⟨n.path, n.title, n.content, validateTags n.tags,
      n.created_at, n.updated_at⟩ = Except.ok n
    rw [validateTags_of_valid n.tags hv.2.2.1]
  unfold from_markdown
  rw [hsplit]
  simp only [hlines, hfold]
  exact hmk

/-- Witness for C10: a concrete valid note with tags, a multi-line
body and a microsecond timestamp survives the round trip. -/
theorem from_markdown_to_markdown_roundtrip_witness :
    NoteValid c10Note ∧ (∀ c ∈ c10Note.title, ¬ c = '\n') ∧
      from_markdown fixedClock c10Note.path (to_markdown c10Note) =
        .ok c10Note :=
  ⟨⟨rfl, rfl, by decide, by decide, by decide⟩, by decide,
    from_markdown_to_markdown_roundtrip fixedClock c10Note
      ⟨rfl, rfl, by decide, by decide, by decide⟩ (by decide)⟩

end BotNotes
